import Mathlib

/-!
# Verification of the `Techpire/db` document database core

This file gives a shallow embedding, in Lean 4, of the parts of the
`Techpire/db` TypeScript source (a NeDB-style embeddable document database)
that the verified properties below are about, and proves or refutes each
property against that embedding.

Embedding conventions:
* JavaScript values handled by the database (the document model) are the
  inductive type `Value`: `undef` is JS `undefined`, `null` is JS `null`,
  numbers are modelled as rationals (the documents the database handles are
  JSON-representable, so NaN/Infinity do not arise), `date t` is a JS `Date`
  holding the timestamp `t` in milliseconds, arrays are lists, and objects
  are association lists of string keys in insertion order (JS objects with
  string keys enumerate in insertion order; keys are unique in any object
  that can actually arise in JS).
* JS exceptions are modelled with `Except String`; the carried string is an
  abbreviation of the thrown message.
* A few corners of JS-semantics cannot be modelled exactly (for example
  host-dependent `Date`-to-string conversion inside relational coercions).
  Functions whose result could depend on such a corner return `Option`,
  with `none` meaning "the model does not determine the result"; no theorem
  below relies on a `none` case.  Inherited prototype properties (which are
  functions, not data) are likewise outside the `Value` model: property
  access is modelled on own data properties, plus array/string `length`
  and indices.
-/

/-- The JS value model of the database (`Model.ts` handles exactly these:
null, booleans, numbers, strings, dates, arrays, plain objects, plus the
transient `undefined`). -/
inductive Value where
  | undef : Value
  | null : Value
  | num : ℚ → Value
  | str : String → Value
  | bool : Bool → Value
  | date : Int → Value
  | arr : List Value → Value
  | obj : List (String × Value) → Value

namespace Value

mutual
/-- Structural equality test on `Value` (used only to state theorems and for
decidability; the database's own equality notions are modelled separately). -/
def beqV : Value → Value → Bool
  | .undef, .undef => true
  | .null, .null => true
  | .num a, .num b => a == b
  | .str a, .str b => a == b
  | .bool a, .bool b => a == b
  | .date a, .date b => a == b
  | .arr a, .arr b => beqVList a b
  | .obj a, .obj b => beqVPairs a b
  | _, _ => false
def beqVList : List Value → List Value → Bool
  | [], [] => true
  | x :: xs, y :: ys => beqV x y && beqVList xs ys
  | _, _ => false
def beqVPairs : List (String × Value) → List (String × Value) → Bool
  | [], [] => true
  | (k, v) :: xs, (k', v') :: ys => k == k' && beqV v v' && beqVPairs xs ys
  | _, _ => false
end

end Value

/-- JS truthiness: `false`, `null`, `undefined`, `0` and `""` are falsy;
every object (dates, arrays, plain objects included) is truthy. -/
def jsTruthy : Value → Bool
  | .undef => false
  | .null => false
  | .bool b => b
  | .num n => n != 0
  | .str s => s != ""
  | .date _ => true
  | .arr _ => true
  | .obj _ => true

/-- JS strict equality `===` restricted to the value model.  On primitives it
is value equality; on dates, arrays and objects JS compares references, and
two separately constructed values are distinct references, which is the only
situation the theorems below put it in, so those cases are `false`. -/
def jsStrictEq : Value → Value → Bool
  | .undef, .undef => true
  | .null, .null => true
  | .num a, .num b => a == b
  | .str a, .str b => a == b
  | .bool a, .bool b => a == b
  | _, _ => false

/-- JS loose `x == null`, the check the indexer uses for sparse indexes:
true exactly for `null` and `undefined`. -/
def jsLooseNull : Value → Bool
  | .null => true
  | .undef => true
  | _ => false

/-- `typeof` tags, used where the source dispatches on `typeof`. -/
inductive JsType where
  | undefinedT | objectT | numberT | stringT | booleanT
deriving DecidableEq

/-- JS `typeof`: note `typeof null`, `typeof (new Date)`, `typeof []` and
`typeof {}` are all `"object"`. -/
def jsTypeof : Value → JsType
  | .undef => .undefinedT
  | .null => .objectT
  | .num _ => .numberT
  | .str _ => .stringT
  | .bool _ => .booleanT
  | .date _ => .objectT
  | .arr _ => .objectT
  | .obj _ => .objectT

/-- Value of a list of decimal digit characters. -/
def digitsToNat (cs : List Char) : Nat :=
  cs.foldl (fun acc c => acc * 10 + (c.toNat - '0'.toNat)) 0

/-- Parse of a canonical array-index string: decimal digits with no leading
zero (except `"0"` itself), as JS uses for array element property keys. -/
def canonIndex? (s : String) : Option Nat :=
  let cs := s.toList
  if cs ≠ [] ∧ cs.all Char.isDigit ∧ (cs.headD '0' ≠ '0' ∨ cs.length = 1) then
    some (digitsToNat cs)
  else none

/-- JS own-data-property access `v[k]`.  Objects look the key up; arrays and
strings expose `length` and their indexed elements; every other access
yields `undefined`.  (Inherited prototype methods are functions and hence
outside the `Value` model; `null[k]`/`undefined[k]`, which throw in JS, are
guarded at every call site of this function, matching the source's guards.) -/
def jsGet : Value → String → Value
  | .obj kvs, k => (kvs.lookup k).getD .undef
  | .arr l, k =>
      if k = "length" then .num l.length
      else match canonIndex? k with
        | some i => (l.getD i .undef)
        | none => .undef
  | .str s, k =>
      if k = "length" then .num s.length
      else match canonIndex? k with
        | some i =>
            match s.toList.get? i with
            | some c => .str (String.mk [c])
            | none => .undef
        | none => .undef
  | _, _ => (.undef)

/-- JS property assignment `v[k] = x` (used by the source through plain
assignment and through lodash `_.set` on dot-free paths).  On objects an
existing key keeps its position and gets the new value, a new key is
appended; assignment on primitives is silently ignored in sloppy mode. -/
def jsSetProp : Value → String → Value → Value
  | .obj kvs, k, x => .obj (setPairs kvs k x)
  | v, _, _ => v
where
  setPairs : List (String × Value) → String → Value → List (String × Value)
    | [], k, x => [(k, x)]
    | (k', v') :: rest, k, x =>
        if k' = k then (k', x) :: rest else (k', v') :: setPairs rest k x

/-- Does the string begin with the `$` character (`k[0] === '$'`; false for
the empty string, whose `k[0]` is `undefined`)? -/
def headIsDollar (k : String) : Bool :=
  match k.data with
  | [] => false
  | c :: _ => c == '$'

/-- Whether an object value has the given own key (lodash `_.has` on a
dot-free path). -/
def jsHasKey : Value → String → Bool
  | .obj kvs, k => (kvs.lookup k).isSome
  | _, _ => false

/-! ## `Model.compareThings` (Model.ts lines 146-224) -/

/-- `compareNSB` on numbers (Model.ts lines 151-156). -/
def compareNSBQ (a b : ℚ) : Int :=
  if a < b then -1 else if a > b then 1 else 0

/-- JS `<` on two strings: lexicographic comparison of the code units.
(Defined on the character lists so that it is computable by the kernel;
characters beyond the basic multilingual plane, where JS would compare
surrogate halves, do not occur in the properties below.) -/
def charListLt : List Char → List Char → Bool
  | [], [] => false
  | [], _ :: _ => true
  | _ :: _, [] => false
  | a :: as, b :: bs => a < b || (a == b && charListLt as bs)

/-- JS `a < b` for strings. -/
def jsStrLt (a b : String) : Bool := charListLt a.data b.data

/-- `compareNSB` on strings; this is the default `compareStrings`
(JS `<`/`>` on strings is lexicographic by code units). -/
def compareNSBStr (a b : String) : Int :=
  if jsStrLt a b then -1 else if jsStrLt b a then 1 else 0

/-- `compareNSB` on booleans (JS relational coerces `false`/`true`
to `0`/`1`). -/
def compareNSBBool : Bool → Bool → Int
  | false, true => -1
  | true, false => 1
  | _, _ => 0

/-- `compareNSB` on the integer timestamps produced by `getTime()`. -/
def compareNSBInt (a b : Int) : Int :=
  if a < b then -1 else if a > b then 1 else 0

/-- Stable insertion of a pair into a pair list sorted by key, under the
code-unit string order `Array.prototype.sort` uses by default. -/
def insertPairByKey (x : String × Value) : List (String × Value) → List (String × Value)
  | [] => [x]
  | y :: ys => if jsStrLt y.1 x.1 then y :: insertPairByKey x ys else x :: y :: ys

/-- Stable sort of an object's pairs by key.  `compareThings` sorts
`Object.keys(a)` and then reads `a[k]` for each key in sorted order
(Model.ts lines 214-218); since keys of a JS object are unique, sorting the
pairs by key and taking the values is the same list of values. -/
def sortPairsByKey : List (String × Value) → List (String × Value)
  | [] => []
  | x :: xs => insertPairByKey x (sortPairsByKey xs)

/-- The values of an object in sorted-key order, as read by the object case
of `compareThings`. -/
def objValsSorted (kvs : List (String × Value)) : List Value :=
  (sortPairsByKey kvs).map Prod.snd

theorem sizeOf_insertPairByKey (x : String × Value) (l : List (String × Value)) :
    sizeOf (insertPairByKey x l) = sizeOf (x :: l) := by
  induction l with
  | nil => rfl
  | cons y ys ih =>
      simp only [insertPairByKey]
      split
      · simp only [List.cons.sizeOf_spec] at *
        omega
      · rfl

theorem sizeOf_sortPairsByKey (l : List (String × Value)) :
    sizeOf (sortPairsByKey l) = sizeOf l := by
  induction l with
  | nil => rfl
  | cons x xs ih =>
      simp only [sortPairsByKey, sizeOf_insertPairByKey, List.cons.sizeOf_spec]
      omega

theorem sizeOf_map_snd_le (l : List (String × Value)) :
    sizeOf (l.map Prod.snd) ≤ sizeOf l := by
  induction l with
  | nil => simp
  | cons x xs ih =>
      cases x
      simp only [List.map_cons, List.cons.sizeOf_spec, Prod.mk.sizeOf_spec] at *
      omega

theorem sizeOf_objValsSorted (kvs : List (String × Value)) :
    sizeOf (objValsSorted kvs) ≤ sizeOf kvs := by
  have h1 := sizeOf_map_snd_le (sortPairsByKey kvs)
  have h2 := sizeOf_sortPairsByKey kvs
  simp only [objValsSorted]
  omega

mutual
/-- `Model.compareThings` (Model.ts lines 181-224) with the default
`compareStrings`: the if/else-if cascade of the source, written as the
equivalent match on the two constructors.  The final object case sorts the
keys of each side and compares the value sequences pairwise, breaking ties
by number of keys; that inline loop (lines 214-223) is the same
lexicographic-then-length algorithm as `compareArrays`, which is reused
here over the sorted value lists. -/
def compareThings : Value → Value → Int
  | .undef, .undef => 0
  | .undef, _ => -1
  | _, .undef => 1
  | .null, .null => 0
  | .null, _ => -1
  | _, .null => 1
  | .num a, .num b => compareNSBQ a b
  | .num _, _ => -1
  | _, .num _ => 1
  | .str a, .str b => compareNSBStr a b
  | .str _, _ => -1
  | _, .str _ => 1
  | .bool a, .bool b => compareNSBBool a b
  | .bool _, _ => -1
  | _, .bool _ => 1
  | .date a, .date b => compareNSBInt a b
  | .date _, _ => -1
  | _, .date _ => 1
  | .arr a, .arr b => compareArrays a b
  | .arr _, _ => -1
  | _, .arr _ => 1
  | .obj a, .obj b => compareArrays (objValsSorted a) (objValsSorted b)
termination_by a b => sizeOf a + sizeOf b
decreasing_by
  all_goals simp_wf
  all_goals try omega
  have h1 := sizeOf_objValsSorted a
  have h2 := sizeOf_objValsSorted b
  omega

/-- `compareArrays` (Model.ts lines 158-169): first differing element
decides; if the common prefix agrees, the longer side wins. -/
def compareArrays : List Value → List Value → Int
  | x :: xs, y :: ys =>
      let c := compareThings x y
      if c ≠ 0 then c else compareArrays xs ys
  | x, y => compareNSBInt x.length y.length
termination_by l1 l2 => sizeOf l1 + sizeOf l2
decreasing_by
  all_goals simp_wf
  all_goals omega
end

/-! ### Properties of `compareThings` -/

/-- Position of each value kind in the cascade of `compareThings`:
undefined, null, numbers, strings, booleans, dates, arrays, objects. -/
def typeRank : Value → Nat
  | .undef => 0
  | .null => 1
  | .num _ => 2
  | .str _ => 3
  | .bool _ => 4
  | .date _ => 5
  | .arr _ => 6
  | .obj _ => 7

theorem compareThings_undef_undef : compareThings .undef .undef = 0 := by
  rw [compareThings.eq_def]

theorem compareThings_null_null : compareThings .null .null = 0 := by
  rw [compareThings.eq_def]

theorem compareThings_num_num (a b : ℚ) :
    compareThings (.num a) (.num b) = compareNSBQ a b := by
  rw [compareThings.eq_def]

theorem compareThings_str_str (a b : String) :
    compareThings (.str a) (.str b) = compareNSBStr a b := by
  rw [compareThings.eq_def]

theorem compareThings_bool_bool (a b : Bool) :
    compareThings (.bool a) (.bool b) = compareNSBBool a b := by
  rw [compareThings.eq_def]

theorem compareThings_date_date (a b : Int) :
    compareThings (.date a) (.date b) = compareNSBInt a b := by
  rw [compareThings.eq_def]

theorem compareThings_arr_arr (a b : List Value) :
    compareThings (.arr a) (.arr b) = compareArrays a b := by
  rw [compareThings.eq_def]

theorem compareThings_obj_obj (a b : List (String × Value)) :
    compareThings (.obj a) (.obj b) =
      compareArrays (objValsSorted a) (objValsSorted b) := by
  rw [compareThings.eq_def]

theorem compareThings_rank_lt {a b : Value} (h : typeRank a < typeRank b) :
    compareThings a b = -1 := by
  cases a <;> cases b <;> simp [typeRank] at h ⊢ <;> rw [compareThings.eq_def]

theorem compareThings_rank_gt {a b : Value} (h : typeRank b < typeRank a) :
    compareThings a b = 1 := by
  cases a <;> cases b <;> simp [typeRank] at h ⊢ <;> rw [compareThings.eq_def]

theorem compareArrays_nil_nil : compareArrays [] [] = 0 := by
  rw [compareArrays.eq_def]; rfl

theorem compareArrays_nil_cons (y : Value) (ys : List Value) :
    compareArrays [] (y :: ys) = -1 := by
  rw [compareArrays.eq_def]
  simp only [compareNSBInt, List.length_nil, List.length_cons]
  norm_num

theorem compareArrays_cons_nil (x : Value) (xs : List Value) :
    compareArrays (x :: xs) [] = 1 := by
  rw [compareArrays.eq_def]
  simp only [compareNSBInt, List.length_nil, List.length_cons]
  norm_num
  omega

theorem compareArrays_cons_cons (x y : Value) (xs ys : List Value) :
    compareArrays (x :: xs) (y :: ys) =
      (if compareThings x y ≠ 0 then compareThings x y else compareArrays xs ys) := by
  rw [compareArrays.eq_def]

theorem ifcmp_antisym {α : Type*} [LinearOrder α] (a b : α) :
    (if a < b then (-1 : Int) else if a > b then 1 else 0) =
      -(if b < a then (-1 : Int) else if b > a then 1 else 0) := by
  rcases lt_trichotomy a b with h | h | h
  · simp [h, lt_asymm h, gt_iff_lt]
  · subst h; simp
  · simp [gt_iff_lt, h, lt_asymm h]

theorem ifcmp_le_zero {α : Type*} [LinearOrder α] (a b : α) :
    (if a < b then (-1 : Int) else if a > b then 1 else 0) ≤ 0 ↔ a ≤ b := by
  rcases lt_trichotomy a b with h | h | h
  · simp [h, lt_asymm h, le_of_lt h, gt_iff_lt]
  · subst h; simp
  · simp [gt_iff_lt, h, lt_asymm h, not_le.2 h]

theorem compareNSBQ_antisym (a b : ℚ) : compareNSBQ a b = -compareNSBQ b a :=
  ifcmp_antisym a b

theorem charListLt_asymm : ∀ {a b : List Char},
    charListLt a b = true → charListLt b a = false := by
  intro a
  induction a with
  | nil =>
      intro b h
      cases b with
      | nil => simp [charListLt] at h
      | cons y ys => rfl
  | cons x xs ih =>
      intro b h
      cases b with
      | nil => simp [charListLt] at h
      | cons y ys =>
          simp only [charListLt, Bool.or_eq_true, Bool.and_eq_true, beq_iff_eq,
            decide_eq_true_eq] at h
          simp only [charListLt, Bool.or_eq_false_iff, Bool.and_eq_false_iff,
            beq_eq_false_iff_ne, ne_eq, decide_eq_false_iff_not]
          rcases h with h | ⟨he, hlt⟩
          · exact ⟨lt_asymm h, Or.inl (fun he => absurd (he ▸ h) (lt_irrefl _))⟩
          · subst he
            exact ⟨lt_irrefl x, Or.inr (ih hlt)⟩

theorem charListLt_trans : ∀ {a b c : List Char},
    charListLt a b = true → charListLt b c = true → charListLt a c = true := by
  intro a
  induction a with
  | nil =>
      intro b c h1 h2
      cases b with
      | nil => simp [charListLt] at h1
      | cons y ys =>
          cases c with
          | nil => simp [charListLt] at h2
          | cons z zs => rfl
  | cons x xs ih =>
      intro b c h1 h2
      cases b with
      | nil => simp [charListLt] at h1
      | cons y ys =>
          cases c with
          | nil => simp [charListLt] at h2
          | cons z zs =>
              simp only [charListLt, Bool.or_eq_true, Bool.and_eq_true, beq_iff_eq,
                decide_eq_true_eq] at h1 h2 ⊢
              rcases h1 with h1 | ⟨he1, hl1⟩
              · rcases h2 with h2 | ⟨he2, hl2⟩
                · exact Or.inl (lt_trans h1 h2)
                · exact Or.inl (he2 ▸ h1)
              · rcases h2 with h2 | ⟨he2, hl2⟩
                · exact Or.inl (he1 ▸ h2)
                · exact Or.inr ⟨he1.trans he2, ih hl1 hl2⟩

theorem charListLt_eq_of_not : ∀ {a b : List Char},
    charListLt a b = false → charListLt b a = false → a = b := by
  intro a
  induction a with
  | nil =>
      intro b h1 _
      cases b with
      | nil => rfl
      | cons y ys => simp [charListLt] at h1
  | cons x xs ih =>
      intro b h1 h2
      cases b with
      | nil => simp [charListLt] at h2
      | cons y ys =>
          simp only [charListLt, Bool.or_eq_false_iff, Bool.and_eq_false_iff,
            beq_eq_false_iff_ne, ne_eq, decide_eq_false_iff_not] at h1 h2
          have hxy : x = y := le_antisymm (not_lt.1 h2.1) (not_lt.1 h1.1)
          subst hxy
          have hts : xs = ys := by
            apply ih
            · rcases h1.2 with h | h
              · exact absurd rfl h
              · exact h
            · rcases h2.2 with h | h
              · exact absurd rfl h
              · exact h
          rw [hts]

theorem compareNSBStr_le_zero (a b : String) : compareNSBStr a b ≤ 0 ↔ jsStrLt b a = false := by
  simp only [compareNSBStr]
  by_cases h1 : jsStrLt a b = true
  · have h2 : jsStrLt b a = false := charListLt_asymm h1
    simp [h1, h2]
  · by_cases h2 : jsStrLt b a = true
    · simp [h1, h2]
    · simp [h1, eq_false_of_ne_true h2]

theorem compareNSBStr_antisym (a b : String) : compareNSBStr a b = -compareNSBStr b a := by
  simp only [compareNSBStr]
  by_cases h1 : jsStrLt a b = true
  · have h2 : jsStrLt b a = false := charListLt_asymm h1
    simp [h1, h2]
  · by_cases h2 : jsStrLt b a = true
    · simp [h1, h2]
    · simp [h1, h2]

theorem compareNSBInt_antisym (a b : Int) : compareNSBInt a b = -compareNSBInt b a :=
  ifcmp_antisym a b

theorem compareNSBBool_antisym : ∀ a b : Bool, compareNSBBool a b = -compareNSBBool b a := by
  decide

theorem compareNSBQ_trans {a b c : ℚ} (h1 : compareNSBQ a b ≤ 0) (h2 : compareNSBQ b c ≤ 0) :
    compareNSBQ a c ≤ 0 :=
  (ifcmp_le_zero a c).2 (le_trans ((ifcmp_le_zero a b).1 h1) ((ifcmp_le_zero b c).1 h2))

theorem compareNSBStr_trans {a b c : String}
    (h1 : compareNSBStr a b ≤ 0) (h2 : compareNSBStr b c ≤ 0) : compareNSBStr a c ≤ 0 := by
  rw [compareNSBStr_le_zero] at h1 h2 ⊢
  by_contra hca
  have hca' : charListLt c.data a.data = true := by
    simpa [jsStrLt] using hca
  by_cases hab : charListLt a.data b.data = true
  · exact absurd (charListLt_trans hca' hab) (by simpa [jsStrLt] using h2)
  · have he : a.data = b.data :=
      charListLt_eq_of_not (eq_false_of_ne_true hab) (by simpa [jsStrLt] using h1)
    rw [he] at hca'
    exact absurd hca' (by simpa [jsStrLt] using h2)

theorem compareNSBInt_trans {a b c : Int}
    (h1 : compareNSBInt a b ≤ 0) (h2 : compareNSBInt b c ≤ 0) : compareNSBInt a c ≤ 0 :=
  (ifcmp_le_zero a c).2 (le_trans ((ifcmp_le_zero a b).1 h1) ((ifcmp_le_zero b c).1 h2))

theorem compareNSBBool_trans :
    ∀ a b c : Bool, compareNSBBool a b ≤ 0 → compareNSBBool b c ≤ 0 → compareNSBBool a c ≤ 0 := by
  decide

theorem sizeOf_lt_of_mem_arr {v : Value} {l : List Value} (h : v ∈ l) :
    sizeOf v < sizeOf (Value.arr l) := by
  have h1 := List.sizeOf_lt_of_mem h
  simp only [Value.arr.sizeOf_spec]
  omega

theorem mem_of_mem_insertPairByKey {x y : String × Value} {l : List (String × Value)}
    (h : y ∈ insertPairByKey x l) : y = x ∨ y ∈ l := by
  induction l with
  | nil =>
      simp only [insertPairByKey, List.mem_singleton] at h
      exact Or.inl h
  | cons z zs ih =>
      simp only [insertPairByKey] at h
      by_cases hc : jsStrLt z.1 x.1 = true
      · rw [if_pos hc] at h
        rcases List.mem_cons.1 h with h1 | h1
        · exact Or.inr (by simp [h1])
        · rcases ih h1 with h2 | h2
          · exact Or.inl h2
          · exact Or.inr (List.mem_cons_of_mem _ h2)
      · rw [if_neg hc] at h
        rcases List.mem_cons.1 h with h1 | h1
        · exact Or.inl h1
        · exact Or.inr h1

theorem mem_of_mem_sortPairsByKey {y : String × Value} {l : List (String × Value)}
    (h : y ∈ sortPairsByKey l) : y ∈ l := by
  induction l with
  | nil => simp [sortPairsByKey] at h
  | cons z zs ih =>
      simp only [sortPairsByKey] at h
      rcases mem_of_mem_insertPairByKey h with h' | h'
      · simp [h']
      · exact List.mem_cons_of_mem _ (ih h')

theorem sizeOf_lt_of_mem_objValsSorted {v : Value} {kvs : List (String × Value)}
    (h : v ∈ objValsSorted kvs) : sizeOf v < sizeOf (Value.obj kvs) := by
  obtain ⟨⟨k, v'⟩, hmem, hv⟩ := List.mem_map.1 h
  subst hv
  have h2 : (k, v') ∈ kvs := mem_of_mem_sortPairsByKey hmem
  have h3 := List.sizeOf_lt_of_mem h2
  simp only [Prod.mk.sizeOf_spec] at h3
  simp only [Value.obj.sizeOf_spec]
  omega

theorem compareArrays_antisym_of (l1 l2 : List Value)
    (ih : ∀ x ∈ l1, ∀ y ∈ l2, compareThings x y = -compareThings y x) :
    compareArrays l1 l2 = -compareArrays l2 l1 := by
  induction l1 generalizing l2 with
  | nil =>
      cases l2 with
      | nil => rw [compareArrays_nil_nil]; rfl
      | cons y ys => rw [compareArrays_nil_cons, compareArrays_cons_nil]
  | cons x xs ihl =>
      cases l2 with
      | nil => rw [compareArrays_cons_nil, compareArrays_nil_cons]; norm_num
      | cons y ys =>
          rw [compareArrays_cons_cons, compareArrays_cons_cons]
          have hxy := ih x (List.mem_cons_self x xs) y (List.mem_cons_self y ys)
          rw [hxy]
          by_cases h : compareThings y x = 0
          · simp only [h, neg_zero, ne_eq, not_true_eq_false, if_false]
            exact ihl ys (fun x' hx' y' hy' =>
              ih x' (List.mem_cons_of_mem _ hx') y' (List.mem_cons_of_mem _ hy'))
          · simp [h]

theorem compareThings_antisym (a b : Value) : compareThings a b = -compareThings b a := by
  suffices H : ∀ n, ∀ a b : Value, sizeOf a + sizeOf b ≤ n →
      compareThings a b = -compareThings b a from H (sizeOf a + sizeOf b) a b le_rfl
  intro n
  induction n using Nat.strong_induction_on with
  | _ n ih =>
    intro a b hab
    rcases Nat.lt_trichotomy (typeRank a) (typeRank b) with hr | hr | hr
    · rw [compareThings_rank_lt hr, compareThings_rank_gt hr]
    · cases a <;> cases b <;>
        first
        | (simp only [typeRank] at hr; exact absurd hr (by decide))
        | (rw [compareThings_undef_undef]; rfl)
        | (rw [compareThings_null_null]; rfl)
        | (rw [compareThings_num_num, compareThings_num_num, compareNSBQ_antisym])
        | (rw [compareThings_str_str, compareThings_str_str, compareNSBStr_antisym])
        | (rw [compareThings_bool_bool, compareThings_bool_bool, compareNSBBool_antisym])
        | (rw [compareThings_date_date, compareThings_date_date, compareNSBInt_antisym])
        | (rw [compareThings_arr_arr, compareThings_arr_arr]
           refine compareArrays_antisym_of _ _ (fun x hx y hy => ?_)
           have h1 := sizeOf_lt_of_mem_arr hx
           have h2 := sizeOf_lt_of_mem_arr hy
           exact ih (sizeOf x + sizeOf y) (by omega) x y le_rfl)
        | (rw [compareThings_obj_obj, compareThings_obj_obj]
           refine compareArrays_antisym_of _ _ (fun x hx y hy => ?_)
           have h1 := sizeOf_lt_of_mem_objValsSorted hx
           have h2 := sizeOf_lt_of_mem_objValsSorted hy
           exact ih (sizeOf x + sizeOf y) (by omega) x y le_rfl)
    · rw [compareThings_rank_gt hr, compareThings_rank_lt hr]; norm_num

theorem compareThings_le_rank {a b : Value} (h : compareThings a b ≤ 0) :
    typeRank a ≤ typeRank b := by
  by_contra hlt
  push_neg at hlt
  rw [compareThings_rank_gt hlt] at h
  norm_num at h

theorem compareArrays_trans_of : ∀ (l1 l2 l3 : List Value),
    (∀ x ∈ l1, ∀ y ∈ l2, ∀ z ∈ l3,
      (compareThings x y ≤ 0 → compareThings y z ≤ 0 → compareThings x z ≤ 0) ∧
      (compareThings y z ≤ 0 → compareThings z x ≤ 0 → compareThings y x ≤ 0) ∧
      (compareThings z x ≤ 0 → compareThings x y ≤ 0 → compareThings z y ≤ 0)) →
    compareArrays l1 l2 ≤ 0 → compareArrays l2 l3 ≤ 0 → compareArrays l1 l3 ≤ 0 := by
  intro l1
  induction l1 with
  | nil =>
      intro l2 l3 _ _ _
      cases l3 with
      | nil => rw [compareArrays_nil_nil]
      | cons z zs => rw [compareArrays_nil_cons]; norm_num
  | cons x xs ihl =>
      intro l2 l3 ihT h12 h23
      cases l2 with
      | nil => rw [compareArrays_cons_nil] at h12; norm_num at h12
      | cons y ys =>
          cases l3 with
          | nil => rw [compareArrays_cons_nil] at h23; norm_num at h23
          | cons z zs =>
              rw [compareArrays_cons_cons] at h12 h23 ⊢
              obtain ⟨t1, t2, t3⟩ :=
                ihT x (List.mem_cons_self x xs) y (List.mem_cons_self y ys)
                  z (List.mem_cons_self z zs)
              have h1 : compareThings x y ≤ 0 := by
                by_cases e : compareThings x y = 0
                · exact le_of_eq e
                · rw [if_pos e] at h12; exact h12
              have h2 : compareThings y z ≤ 0 := by
                by_cases e : compareThings y z = 0
                · exact le_of_eq e
                · rw [if_pos e] at h23; exact h23
              have h3 : compareThings x z ≤ 0 := t1 h1 h2
              by_cases e1 : compareThings x y = 0
              · by_cases e2 : compareThings y z = 0
                · by_cases e3 : compareThings x z = 0
                  · rw [if_neg (not_ne_iff.2 e3)]
                    rw [if_neg (not_ne_iff.2 e1)] at h12
                    rw [if_neg (not_ne_iff.2 e2)] at h23
                    exact ihl ys zs
                      (fun x' hx' y' hy' z' hz' =>
                        ihT x' (List.mem_cons_of_mem _ hx') y' (List.mem_cons_of_mem _ hy')
                          z' (List.mem_cons_of_mem _ hz')) h12 h23
                  · rw [if_pos e3]; exact h3
                · have e3 : compareThings x z ≠ 0 := by
                    intro h0
                    have hzx : compareThings z x ≤ 0 := by
                      have hA := compareThings_antisym x z
                      omega
                    have hzy : compareThings z y ≤ 0 := t3 hzx h1
                    have hyz : compareThings y z = 0 := by
                      have hA := compareThings_antisym y z
                      omega
                    exact e2 hyz
                  rw [if_pos e3]; exact h3
              · have e3 : compareThings x z ≠ 0 := by
                  intro h0
                  have hzx : compareThings z x ≤ 0 := by
                    have hA := compareThings_antisym x z
                    omega
                  have hyx : compareThings y x ≤ 0 := t2 h2 hzx
                  have hxy : compareThings x y = 0 := by
                    have hA := compareThings_antisym x y
                    omega
                  exact e1 hxy
                rw [if_pos e3]; exact h3

theorem compareThings_trans {a b c : Value} (hab : compareThings a b ≤ 0)
    (hbc : compareThings b c ≤ 0) : compareThings a c ≤ 0 := by
  suffices H : ∀ n, ∀ a b c : Value, sizeOf a + sizeOf b + sizeOf c ≤ n →
      compareThings a b ≤ 0 → compareThings b c ≤ 0 → compareThings a c ≤ 0 from
    H _ a b c le_rfl hab hbc
  clear hab hbc a b c
  intro n
  induction n using Nat.strong_induction_on with
  | _ n ih =>
    intro a b c habc hab hbc
    have r1 : typeRank a ≤ typeRank b := compareThings_le_rank hab
    have r2 : typeRank b ≤ typeRank c := compareThings_le_rank hbc
    rcases Nat.lt_or_ge (typeRank a) (typeRank c) with hr | hr
    · rw [compareThings_rank_lt hr]; norm_num
    · have e1 : typeRank a = typeRank b := le_antisymm r1 (by omega)
      have e2 : typeRank b = typeRank c := le_antisymm r2 (by omega)
      cases a <;> cases b <;> cases c <;>
        first
        | (simp only [typeRank] at e1; exact absurd e1 (by decide))
        | (simp only [typeRank] at e2; exact absurd e2 (by decide))
        | (rw [compareThings_undef_undef])
        | (rw [compareThings_null_null])
        | (rw [compareThings_num_num] at hab hbc ⊢; exact compareNSBQ_trans hab hbc)
        | (rw [compareThings_str_str] at hab hbc ⊢; exact compareNSBStr_trans hab hbc)
        | (rw [compareThings_bool_bool] at hab hbc ⊢; exact compareNSBBool_trans _ _ _ hab hbc)
        | (rw [compareThings_date_date] at hab hbc ⊢; exact compareNSBInt_trans hab hbc)
        | (rw [compareThings_arr_arr] at hab hbc ⊢
           refine compareArrays_trans_of _ _ _ (fun x hx y hy z hz => ?_) hab hbc
           have s1 := sizeOf_lt_of_mem_arr hx
           have s2 := sizeOf_lt_of_mem_arr hy
           have s3 := sizeOf_lt_of_mem_arr hz
           exact ⟨fun u v => ih (sizeOf x + sizeOf y + sizeOf z) (by omega) x y z le_rfl u v,
             fun u v => ih (sizeOf y + sizeOf z + sizeOf x) (by omega) y z x le_rfl u v,
             fun u v => ih (sizeOf z + sizeOf x + sizeOf y) (by omega) z x y le_rfl u v⟩)
        | (rw [compareThings_obj_obj] at hab hbc ⊢
           refine compareArrays_trans_of _ _ _ (fun x hx y hy z hz => ?_) hab hbc
           have s1 := sizeOf_lt_of_mem_objValsSorted hx
           have s2 := sizeOf_lt_of_mem_objValsSorted hy
           have s3 := sizeOf_lt_of_mem_objValsSorted hz
           exact ⟨fun u v => ih (sizeOf x + sizeOf y + sizeOf z) (by omega) x y z le_rfl u v,
             fun u v => ih (sizeOf y + sizeOf z + sizeOf x) (by omega) y z x le_rfl u v,
             fun u v => ih (sizeOf z + sizeOf x + sizeOf y) (by omega) z x y le_rfl u v⟩)

/-- C4: `compareThings` is a total order on values extended with `Undefined`:
it is antisymmetric (`compare(a,b) = -compare(b,a)`), transitive on `≤`,
and values of different kinds are ordered by the hierarchy
`Undefined < Null < Number < String < Bool < Date < Array < Object`
(encoded by `typeRank`). -/
theorem claim_C4_compareThings_total_order :
    (∀ a b : Value, compareThings a b = -compareThings b a) ∧
    (∀ a b c : Value, compareThings a b ≤ 0 → compareThings b c ≤ 0 →
      compareThings a c ≤ 0) ∧
    (∀ a b : Value, typeRank a < typeRank b → compareThings a b = -1) :=
  ⟨compareThings_antisym,
   fun _ _ _ h1 h2 => compareThings_trans h1 h2,
   fun _ _ h => compareThings_rank_lt h⟩

/-- Witness for C4 at concrete inputs: transitivity applied to the numbers
1, 2, 3 and the hierarchy applied to `Null < String`. -/
theorem claim_C4_witness :
    compareThings (Value.num 1) (Value.num 3) ≤ 0 ∧
      compareThings Value.null (Value.str "a") = -1 :=
  ⟨claim_C4_compareThings_total_order.2.1 (Value.num 1) (Value.num 2) (Value.num 3)
      (by rw [compareThings_num_num]; norm_num [compareNSBQ])
      (by rw [compareThings_num_num]; norm_num [compareNSBQ]),
   claim_C4_compareThings_total_order.2.2 Value.null (Value.str "a") (by decide)⟩

/-! ## `Model.serialize` / `Model.deserialize` (Model.ts lines 56-95)

`serialize` is `JSON.stringify` with a replacer and `deserialize` is
`JSON.parse` with a reviver.  `JSON.stringify`/`JSON.parse` themselves are
mutually inverse between JSON trees and their one-line text (the embedding
treats the text layer as that bijection), so the replacer/reviver pair is
modelled as a map from `Value` to the JSON tree `J` and back. -/

/-- A JSON tree: what remains of a serialized value once the textual layer
of `JSON.stringify`/`JSON.parse` is abstracted away. -/
inductive J where
  | jnull : J
  | jbool : Bool → J
  | jnum : ℚ → J
  | jstr : String → J
  | jarr : List J → J
  | jobj : List (String × J) → J

/-- Is the value a JS number? -/
def isNum : Value → Bool
  | .num _ => true
  | _ => false

/-- Is the value the JS boolean `true`? -/
def isBoolTrue : Value → Bool
  | .bool true => true
  | _ => false

/-- `checkKey` (Model.ts lines 21-34).  A key beginning with `$` is rejected
unless it is one of the four reserved forms (`$$date` carrying a number,
`$$deleted: true`, `$$indexCreated`, `$$indexRemoved`); a key containing a
`.` is rejected.  The value argument is the value as the caller sees it:
in the serializer's replacer a `Date` has already been turned into a string
by `toJSON`, so a `$$date` key whose value is a `Date` is not a number in
either view and both callers agree with this function.  (The
`typeof k === 'number'` branch concerns numeric keys that cannot arise
here, keys are strings.) -/
def checkKeyE (k : String) (v : Value) : Except String Unit :=
  if headIsDollar k && !(k == "$$date" && isNum v) && !(k == "$$deleted" && isBoolTrue v)
      && !(k == "$$indexCreated") && !(k == "$$indexRemoved") then
    .error "Field names cannot begin with the $ character"
  else if k.data.contains '.' then
    .error "Field names cannot contain a ."
  else .ok ()

mutual
/-- `Model.serialize` (lines 64-81) up to the JSON text layer: the replacer
validates every key via `checkKey`, drops `undefined`-valued object fields
(`JSON.stringify` omits them; at top level the result is no string at all,
hence the `Option`), and turns every `Date` into `{$$date: getTime()}`.
The keys `JSON.stringify` feeds the replacer for array elements are index
strings, which always pass `checkKey`. -/
def serialize : Value → Except String (Option J)
  | .undef => .ok none
  | .null => .ok (some .jnull)
  | .num q => .ok (some (.jnum q))
  | .str s => .ok (some (.jstr s))
  | .bool b => .ok (some (.jbool b))
  | .date t => .ok (some (.jobj [("$$date", .jnum (t : ℚ))]))
  | .arr l =>
      match serializeArr l with
      | .ok es => .ok (some (.jarr es))
      | .error e => .error e
  | .obj kvs =>
      match serializeObj kvs with
      | .ok es => .ok (some (.jobj es))
      | .error e => .error e

/-- Array elements under `serialize`: an `undefined` element serializes to
`null` (that is what `JSON.stringify` emits inside arrays). -/
def serializeArr : List Value → Except String (List J)
  | [] => .ok []
  | v :: vs =>
      match serialize v with
      | .error e => .error e
      | .ok j? =>
          match serializeArr vs with
          | .error e => .error e
          | .ok rest => .ok ((j?.getD .jnull) :: rest)

/-- Object fields under `serialize`: each key is validated (the replacer
runs `checkKey` even on fields about to be dropped), then an
`undefined`-valued field is omitted. -/
def serializeObj : List (String × Value) → Except String (List (String × J))
  | [] => .ok []
  | (k, v) :: kvs =>
      match checkKeyE k v with
      | .error e => .error e
      | .ok _ =>
          match serialize v with
          | .error e => .error e
          | .ok j? =>
              match serializeObj kvs with
              | .error e => .error e
              | .ok rest =>
                  match j? with
                  | none => .ok rest
                  | some j => .ok ((k, j) :: rest)
end

/-- JS `new Date(x)` as used by the reviver: a number argument gives that
timestamp truncated toward zero; a `Date` argument copies it; any other
argument goes through host date-string parsing, which the model leaves
undetermined. -/
def jsNewDate : Value → Option Value
  | .num q => some (.date (q.num / (q.den : Int)))
  | .date t => some (.date t)
  | _ => none

mutual
/-- `Model.deserialize` (lines 87-95) up to the JSON text layer.  The
reviver maps the value under a `$$date` key through `new Date(v)`, and
when a revived object carries a `$$date` entry (always a `Date` object by
then, hence truthy) the object is replaced by that entry's value. -/
def deserialize : J → Option Value
  | .jnull => some .null
  | .jbool b => some (.bool b)
  | .jnum q => some (.num q)
  | .jstr s => some (.str s)
  | .jarr l =>
      match deserializeArr l with
      | some vs => some (.arr vs)
      | none => none
  | .jobj kvs =>
      match deserializeObj kvs with
      | some pairs =>
          match pairs.lookup "$$date" with
          | some d => some d
          | none => some (.obj pairs)
      | none => none

def deserializeArr : List J → Option (List Value)
  | [] => some []
  | j :: js =>
      match deserialize j with
      | some v =>
          match deserializeArr js with
          | some rest => some (v :: rest)
          | none => none
      | none => none

def deserializeObj : List (String × J) → Option (List (String × Value))
  | [] => some []
  | (k, j) :: rest =>
      match deserialize j with
      | some v =>
          match (if k = "$$date" then jsNewDate v else some v) with
          | some v2 =>
              match deserializeObj rest with
              | some rest' => some ((k, v2) :: rest')
              | none => none
          | none => none
      | none => none
end

/-- Is the value one of `null`, string, boolean, number — the primitives of
the first branch of `areThingsEqual`? -/
def isNSBPrim : Value → Bool
  | .null => true
  | .num _ => true
  | .str _ => true
  | .bool _ => true
  | _ => false

mutual
/-- `Model.areThingsEqual` (lines 535-570).  The source's if-cascade:
(1) if either side is null/string/boolean/number, strict equality decides;
(2) if either side is a `Date`, equality holds only for two dates with the
same timestamp; (3) a one-sided array, or `undefined` on either side, is
never equal; (4) two arrays or two objects are compared through
`Object.keys` — for arrays that is index-by-index equality plus equal
length, for objects equal key counts, key containment and recursive
equality of `a[k]` with `b[k]`.  The match below tries the homogeneous
array/object/date cases first and sends everything else through the
cascade's remaining answers, which is the same function. -/
def areThingsEqual : Value → Value → Bool
  | .arr a, .arr b => areThingsEqualList a b
  | .obj a, .obj b => a.length == b.length && areThingsEqualPairs a b
  | .date x, .date y => x == y
  | a, b => if isNSBPrim a || isNSBPrim b then jsStrictEq a b else false

/-- Step (4) of `areThingsEqual` on two arrays: `Object.keys` of an array
is its index strings, so this is equal length plus index-wise equality. -/
def areThingsEqualList : List Value → List Value → Bool
  | [], [] => true
  | x :: xs, y :: ys => areThingsEqual x y && areThingsEqualList xs ys
  | _, _ => false

/-- Step (4) of `areThingsEqual` on objects: every key of `a` must appear
in `b` with an equal value.  (The pair's own value is `a[k]`: keys of a JS
object are unique.) -/
def areThingsEqualPairs : List (String × Value) → List (String × Value) → Bool
  | [], _ => true
  | (k, v) :: rest, b =>
      (match b.lookup k with
       | some w => areThingsEqual v w
       | none => false) && areThingsEqualPairs rest b
end

/-- A valid persisted field name: does not begin with `$`, contains no `.`. -/
def validKey (k : String) : Bool := !(headIsDollar k) && !(k.data.contains '.')

mutual
/-- The values the round-trip law quantifies over: built from Null, Bool,
Number, String, Date, Array and Object (`Undefined` is not a building
block), with valid field names; keys are unique within an object, as they
are in any JS object. -/
def validValue : Value → Bool
  | .undef => false
  | .null => true
  | .num _ => true
  | .str _ => true
  | .bool _ => true
  | .date _ => true
  | .arr l => validValueList l
  | .obj kvs => validValuePairs kvs

def validValueList : List Value → Bool
  | [] => true
  | v :: vs => validValue v && validValueList vs

def validValuePairs : List (String × Value) → Bool
  | [] => true
  | (k, v) :: rest =>
      validKey k && rest.all (fun kv => kv.1 != k) && validValue v && validValuePairs rest
end

theorem checkKeyE_ok_of_validKey {k : String} (h : validKey k = true) (v : Value) :
    checkKeyE k v = .ok () := by
  simp only [validKey, Bool.and_eq_true, Bool.not_eq_true'] at h
  obtain ⟨h1, h2⟩ := h
  have h2' : '.' ∉ k.data := by simpa using h2
  simp [checkKeyE, h1, h2']

theorem validKey_checkKeyE {k : String} {v : Value} (h : checkKeyE k v = .ok ())
    (hdol : headIsDollar k = false) : validKey k = true := by
  simp only [checkKeyE] at h
  simp only [validKey, hdol, Bool.not_false, Bool.true_and, Bool.not_eq_true']
  by_cases hc : k.data.contains '.' = true
  · rw [if_neg (by simp [hdol]), if_pos hc] at h
    exact absurd h (by simp)
  · exact eq_false_of_ne_true hc

theorem validKey_ne_ddate {k : String} (h : validKey k = true) : k ≠ "$$date" := by
  intro he
  subst he
  exact absurd h (by decide)

theorem lookup_ddate_eq_none {β : Type*} {kvs : List (String × β)}
    (h : ∀ p ∈ kvs, p.1 ≠ "$$date") : kvs.lookup "$$date" = none := by
  induction kvs with
  | nil => rfl
  | cons p rest ih =>
      obtain ⟨k, b⟩ := p
      have hk : k ≠ "$$date" := h (k, b) (List.mem_cons_self _ _)
      have hbeq : ("$$date" == k) = false := beq_eq_false_iff_ne.2 (Ne.symm hk)
      simp only [List.lookup, hbeq]
      exact ih (fun p hp => h p (List.mem_cons_of_mem _ hp))

theorem validValue_of_mem_list : ∀ {l : List Value}, validValueList l = true →
    ∀ {v : Value}, v ∈ l → validValue v = true := by
  intro l
  induction l with
  | nil => intro _ v hm; simp at hm
  | cons x xs ih =>
      intro h v hm
      simp only [validValueList, Bool.and_eq_true] at h
      rcases List.mem_cons.1 hm with rfl | hm'
      · exact h.1
      · exact ih h.2 hm'

theorem validValuePairs_parts : ∀ {kvs : List (String × Value)},
    validValuePairs kvs = true →
    ∀ {p : String × Value}, p ∈ kvs → validKey p.1 = true ∧ validValue p.2 = true := by
  intro kvs
  induction kvs with
  | nil => intro _ p hm; simp at hm
  | cons x xs ih =>
      intro h p hm
      obtain ⟨k, v⟩ := x
      simp only [validValuePairs, Bool.and_eq_true] at h
      rcases List.mem_cons.1 hm with hp | hm'
      · subst hp; exact ⟨h.1.1.1, h.1.2⟩
      · exact ih h.2 hm'

theorem lookup_self_of_validPairs : ∀ {kvs : List (String × Value)},
    validValuePairs kvs = true → ∀ {p : String × Value}, p ∈ kvs →
      kvs.lookup p.1 = some p.2 := by
  intro kvs
  induction kvs with
  | nil => intro _ p hm; simp at hm
  | cons x xs ih =>
      intro h p hm
      obtain ⟨k, v⟩ := x
      simp only [validValuePairs, Bool.and_eq_true] at h
      rcases List.mem_cons.1 hm with hp | hm'
      · subst hp; simp [List.lookup]
      · have hne : p.1 ≠ k := by
          have hall := h.1.1.2
          rw [List.all_eq_true] at hall
          have h2 := hall p hm'
          simpa using h2
        simp only [List.lookup, beq_eq_false_iff_ne.2 hne]
        exact ih h.2 hm'

theorem serializeArr_roundtrip_of : ∀ (l : List Value),
    (∀ v ∈ l, ∃ j, serialize v = .ok (some j) ∧ deserialize j = some v) →
    ∃ es, serializeArr l = .ok es ∧ deserializeArr es = some l := by
  intro l
  induction l with
  | nil => exact fun _ => ⟨[], rfl, rfl⟩
  | cons v vs ihl =>
      intro ih
      obtain ⟨j, hs, hd⟩ := ih v (List.mem_cons_self _ _)
      obtain ⟨es, hse, hde⟩ := ihl (fun w hw => ih w (List.mem_cons_of_mem _ hw))
      refine ⟨j :: es, ?_, ?_⟩
      · simp [serializeArr, hs, hse]
      · simp [deserializeArr, hd, hde]

theorem serializeObj_roundtrip_of : ∀ (kvs : List (String × Value)),
    (∀ p ∈ kvs, ∃ j, serialize p.2 = .ok (some j) ∧ deserialize j = some p.2) →
    validValuePairs kvs = true →
    ∃ es, serializeObj kvs = .ok es ∧ deserializeObj es = some kvs ∧
      ∀ p ∈ es, p.1 ≠ "$$date" := by
  intro kvs
  induction kvs with
  | nil => exact fun _ _ => ⟨[], rfl, rfl, by simp⟩
  | cons p rest ihl =>
      intro ih hv
      obtain ⟨k, v⟩ := p
      simp only [validValuePairs, Bool.and_eq_true] at hv
      obtain ⟨⟨⟨hk, _hfresh⟩, _hvv⟩, hrest⟩ := hv
      obtain ⟨j, hs, hd⟩ := ih (k, v) (List.mem_cons_self _ _)
      obtain ⟨es, hse, hde, hnd⟩ := ihl (fun q hq => ih q (List.mem_cons_of_mem _ hq)) hrest
      have hkd : k ≠ "$$date" := validKey_ne_ddate hk
      refine ⟨(k, j) :: es, ?_, ?_, ?_⟩
      · simp [serializeObj, checkKeyE_ok_of_validKey hk, hs, hse]
      · simp [deserializeObj, hd, hde, hkd]
      · intro q hq
        rcases List.mem_cons.1 hq with rfl | hq'
        · exact hkd
        · exact hnd q hq'

theorem serialize_roundtrip (v : Value) (hv : validValue v = true) :
    ∃ j, serialize v = .ok (some j) ∧ deserialize j = some v := by
  suffices H : ∀ n (v : Value), sizeOf v ≤ n → validValue v = true →
      ∃ j, serialize v = .ok (some j) ∧ deserialize j = some v from H _ v le_rfl hv
  clear hv v
  intro n
  induction n using Nat.strong_induction_on with
  | _ n ih =>
    intro v hsz hv
    cases v with
    | undef => simp [validValue] at hv
    | null => exact ⟨.jnull, rfl, rfl⟩
    | num q => exact ⟨.jnum q, rfl, rfl⟩
    | str s => exact ⟨.jstr s, rfl, rfl⟩
    | bool b => exact ⟨.jbool b, rfl, rfl⟩
    | date t =>
        refine ⟨.jobj [("$$date", .jnum (t : ℚ))], rfl, ?_⟩
        simp only [deserialize, deserializeObj, jsNewDate, List.lookup, if_pos,
          beq_self_eq_true]
        norm_num
    | arr l =>
        simp only [validValue] at hv
        obtain ⟨es, hse, hde⟩ := serializeArr_roundtrip_of l (fun w hw =>
          ih (sizeOf w) (by have h1 := sizeOf_lt_of_mem_arr hw; omega)
            w le_rfl (validValue_of_mem_list hv hw))
        refine ⟨.jarr es, ?_, ?_⟩
        · simp [serialize, hse]
        · simp [deserialize, hde]
    | obj kvs =>
        simp only [validValue] at hv
        obtain ⟨es, hse, hde, hnd⟩ := serializeObj_roundtrip_of kvs (fun p hp =>
          ih (sizeOf p.2)
            (by
              have h1 := List.sizeOf_lt_of_mem hp
              obtain ⟨pk, pv⟩ := p
              simp only [Prod.mk.sizeOf_spec] at h1
              simp only [Value.obj.sizeOf_spec] at hsz
              show sizeOf pv < n
              omega)
            p.2 le_rfl (validValuePairs_parts hv hp).2) hv
        have hnv : ∀ p ∈ kvs, p.1 ≠ "$$date" := fun p hp =>
          validKey_ne_ddate (validValuePairs_parts hv hp).1
        refine ⟨.jobj es, ?_, ?_⟩
        · simp [serialize, hse]
        · simp [deserialize, hde, lookup_ddate_eq_none hnv]

theorem areThingsEqualList_refl_of : ∀ (l : List Value),
    (∀ x ∈ l, areThingsEqual x x = true) → areThingsEqualList l l = true := by
  intro l
  induction l with
  | nil => intro _; rfl
  | cons x xs ih =>
      intro h
      simp only [areThingsEqualList, Bool.and_eq_true]
      exact ⟨h x (List.mem_cons_self _ _), ih (fun y hy => h y (List.mem_cons_of_mem _ hy))⟩

theorem areThingsEqualPairs_of : ∀ (rest b : List (String × Value)),
    (∀ p ∈ rest, b.lookup p.1 = some p.2 ∧ areThingsEqual p.2 p.2 = true) →
    areThingsEqualPairs rest b = true := by
  intro rest
  induction rest with
  | nil => intro b _; rfl
  | cons p ps ih =>
      intro b h
      obtain ⟨k, v⟩ := p
      obtain ⟨hl, he⟩ := h (k, v) (List.mem_cons_self _ _)
      simp only [areThingsEqualPairs, hl, he, Bool.and_eq_true, Bool.true_and]
      exact ih b (fun q hq => h q (List.mem_cons_of_mem _ hq))

theorem areThingsEqual_refl (v : Value) (hv : validValue v = true) :
    areThingsEqual v v = true := by
  suffices H : ∀ n (v : Value), sizeOf v ≤ n → validValue v = true →
      areThingsEqual v v = true from H _ v le_rfl hv
  clear hv v
  intro n
  induction n using Nat.strong_induction_on with
  | _ n ih =>
    intro v hsz hv
    cases v with
    | undef => simp [validValue] at hv
    | null => rfl
    | num q => simp [areThingsEqual, jsStrictEq, isNSBPrim]
    | str s => simp [areThingsEqual, jsStrictEq, isNSBPrim]
    | bool b => simp [areThingsEqual, jsStrictEq, isNSBPrim]
    | date t => simp [areThingsEqual]
    | arr l =>
        simp only [validValue] at hv
        simp only [areThingsEqual]
        exact areThingsEqualList_refl_of l (fun x hx =>
          ih (sizeOf x) (by have h1 := sizeOf_lt_of_mem_arr hx; omega)
            x le_rfl (validValue_of_mem_list hv hx))
    | obj kvs =>
        simp only [validValue] at hv
        simp only [areThingsEqual, Bool.and_eq_true, beq_self_eq_true, true_and]
        exact areThingsEqualPairs_of kvs kvs (fun p hp =>
          ⟨lookup_self_of_validPairs hv hp,
           ih (sizeOf p.2)
             (by
               have h1 := List.sizeOf_lt_of_mem hp
               obtain ⟨pk, pv⟩ := p
               simp only [Prod.mk.sizeOf_spec] at h1
               simp only [Value.obj.sizeOf_spec] at hsz
               show sizeOf pv < n
               omega)
             p.2 le_rfl (validValuePairs_parts hv hp).2⟩)

/-- C5: serialization round-trip.  For every value built from Null, Bool,
Number, String, Date, Array and Object with valid field names,
`deserialize(serialize(v))` succeeds and returns `v` itself, which is in
particular equal to `v` under the database's equality `areThingsEqual`
(`Undefined` is not among the building blocks, so no field is dropped and
the law holds on the nose). -/
theorem claim_C5_serialize_roundtrip (v : Value) (hv : validValue v = true) :
    ∃ j w, serialize v = .ok (some j) ∧ deserialize j = some w ∧ w = v ∧
      areThingsEqual w v = true := by
  obtain ⟨j, hs, hd⟩ := serialize_roundtrip v hv
  exact ⟨j, v, hs, hd, rfl, areThingsEqual_refl v hv⟩

/-- Witness for C5 at a concrete document containing a string, a number, a
date, an array and null. -/
theorem claim_C5_witness :
    ∃ j w,
      serialize (.obj [("a", .num 1), ("d", .date 5), ("l", .arr [.str "x", .null])]) =
        .ok (some j) ∧
      deserialize j = some w ∧
      w = .obj [("a", .num 1), ("d", .date 5), ("l", .arr [.str "x", .null])] ∧
      areThingsEqual w (.obj [("a", .num 1), ("d", .date 5), ("l", .arr [.str "x", .null])]) =
        true :=
  claim_C5_serialize_roundtrip _ (by rfl)

/-! ## `Model.deepCopy`, `Model.checkObject`, `Model.modify`
(Model.ts lines 40-54, 102-134, 237-490) -/

mutual
/-- `Model.deepCopy` (lines 102-134).  Primitives, `null` and dates are
returned as they are (dates are shared references in JS; sharing is not
observable for the immutable model), arrays and objects are rebuilt; with
`strictKeys` keys beginning with `$` or containing `.` are dropped; any
other input (only `undefined` in the value model) falls through to
`return undefined`. -/
def deepCopy : Value → Bool → Value
  | .bool b, _ => .bool b
  | .num q, _ => .num q
  | .str s, _ => .str s
  | .null, _ => .null
  | .date t, _ => .date t
  | .arr l, strictKeys => .arr (deepCopyList l strictKeys)
  | .obj kvs, strictKeys => .obj (deepCopyPairs kvs strictKeys)
  | .undef, _ => .undef

def deepCopyList : List Value → Bool → List Value
  | [], _ => []
  | v :: vs, strictKeys => deepCopy v strictKeys :: deepCopyList vs strictKeys

def deepCopyPairs : List (String × Value) → Bool → List (String × Value)
  | [], _ => []
  | (k, v) :: kvs, strictKeys =>
      if !strictKeys || (!(headIsDollar k) && !(k.data.contains '.')) then
        (k, deepCopy v strictKeys) :: deepCopyPairs kvs strictKeys
      else deepCopyPairs kvs strictKeys
end

mutual
/-- `Model.checkObject` (lines 40-54): run `checkKey` on every field of
every nested object, recursing through arrays and objects; the first
offending key raises.  (For an array the source walks the elements twice —
once via `forEach`, once via `Object.keys`, whose index keys always pass
`checkKey` — producing the same first error as the single walk here.) -/
def checkObject : Value → Except String Unit
  | .arr l => checkObjectList l
  | .obj kvs => checkObjectPairs kvs
  | _ => .ok ()

def checkObjectList : List Value → Except String Unit
  | [] => .ok ()
  | v :: vs =>
      match checkObject v with
      | .error e => .error e
      | .ok _ => checkObjectList vs

def checkObjectPairs : List (String × Value) → Except String Unit
  | [] => .ok ()
  | (k, v) :: kvs =>
      match checkKeyE k v with
      | .error e => .error e
      | .ok _ =>
          match checkObject v with
          | .error e => .error e
          | .ok _ => checkObjectPairs kvs
end

/-- Is the value non-null of JS type `object` (`value !== null &&
typeof value === 'object'`)? -/
def isObjectTypeNonNull : Value → Bool
  | .date _ => true
  | .arr _ => true
  | .obj _ => true
  | _ => false

/-- Number of `Object.keys` of a value when that is determined without
number formatting (objects: own keys; dates, primitives: none). -/
def jsKeysLen : Value → Nat
  | .obj kvs => kvs.length
  | .arr l => l.length
  | .str s => s.length
  | _ => 0

/-- JS `Array.prototype.slice(start, end)` with integer arguments already
clamped to `0 ≤ start` and `end ≤ length` by the caller. -/
def jsArraySlice (l : List Value) (start endIdx : Int) : List Value :=
  ((l.drop start.toNat).take (endIdx - start).toNat)

/-- Truncation toward zero of a JS number, as `ToIntegerOrInfinity`
performs on slice bounds. -/
def qTrunc (q : ℚ) : Int := q.num / (q.den : Int)

/-- `lastStepModifierFunctions.$push` (Model.ts lines 283-327) for a
dot-free field (`modify` calls the last-step functions with the raw query
key; a dotted key would mix lodash path access with the literal
`obj[field].push` access of the source, which this model leaves
undetermined — the verified properties use top-level fields).  The source
mutates the array in place through the `arrayField` reference; the model
re-stores the extended array, which is the same observable object. -/
def pushModifier (obj : Value) (field : String) (value : Value) :
    Option (Except String Value) :=
  if field.data.contains '.' then none
  else
    let obj1 := if jsHasKey obj field then obj else jsSetProp obj field (.arr [])
    match jsGet obj1 field with
    | .arr arr0 =>
        let value1 :=
          if isObjectTypeNonNull value && jsTruthy (jsGet value "$slice")
              && jsStrictEq (jsGet value "$each") .undef then
            jsSetProp value "$each" (.arr [])
          else value
        if isObjectTypeNonNull value1 && jsTruthy (jsGet value1 "$each") then
          if decide (3 ≤ jsKeysLen value1)
              || (jsKeysLen value1 == 2 && jsStrictEq (jsGet value1 "$slice") .undef) then
            some (.error "Can only use $slice in cunjunction with $each when $push to array")
          else
            match jsGet value1 "$each" with
            | .arr each =>
                let arr1 := arr0 ++ each
                let obj2 := jsSetProp obj1 field (.arr arr1)
                match jsGet value1 "$slice" with
                | .num s =>
                    if s = 0 then some (.ok (jsSetProp obj2 field (.arr [])))
                    else
                      let n : Int := arr1.length
                      if s < 0 then
                        some (.ok (jsSetProp obj2 field
                          (.arr (jsArraySlice arr1 (max 0 (n + qTrunc s)) n))))
                      else
                        some (.ok (jsSetProp obj2 field
                          (.arr (jsArraySlice arr1 0 (min n (qTrunc s))))))
                | _ => some (.ok obj2)
            | _ => some (.error "$each requires an array value")
        else
          some (.ok (jsSetProp obj1 field (.arr (arr0 ++ [value]))))
    | _ => some (.error "Cannot $push an element on non-array values")

/-- `lastStepModifierFunctions.$pop` (Model.ts lines 361-371).  The checks
are: `obj[field]` must be an array, and the operand must be a number (any
number, despite the error message naming integers); `0` is a no-op,
positive drops the last element (`slice(0, length-1)`), negative drops the
first (`slice(1)`). -/
def popModifier (obj : Value) (field : String) (value : Value) :
    Option (Except String Value) :=
  match jsGet obj field with
  | .arr l =>
      match value with
      | .num q =>
          if q = 0 then some (.ok obj)
          else if q > 0 then some (.ok (jsSetProp obj field (.arr l.dropLast)))
          else some (.ok (jsSetProp obj field (.arr l.tail)))
      | _ => some (.error "isn't an integer, can't use it with $pop")
  | _ => some (.error "Can't $pop an element from non-array values")

/-- The modifier names: the keys of `lastStepModifierFunctions`
(Model.ts lines 237-417), used by `modify`'s unknown-modifier check. -/
def modifierNames : List String :=
  ["$set", "$unset", "$push", "$addToSet", "$pop", "$pull", "$inc", "$max", "$min"]

/-- Dispatch into `lastStepModifierFunctions`.  Only `$push` and `$pop`
are modelled (they are the only modifiers the verified properties
exercise); for the remaining seven the model answers `none` rather than an
unfaithful approximation. -/
def lastStepModifier (m : String) (obj : Value) (field : String) (value : Value) :
    Option (Except String Value) :=
  if m = "$push" then pushModifier obj field value
  else if m = "$pop" then popModifier obj field value
  else none

/-- `Object.keys`: own enumerable keys of an object; none for numbers,
booleans and dates; a `TypeError` for `null`/`undefined`.  For arrays and
strings the keys are index strings, which the verified properties never
need; the model leaves them undetermined rather than model number
formatting. -/
def jsKeys : Value → Option (Except String (List String))
  | .obj kvs => some (.ok (kvs.map Prod.fst))
  | .null => some (.error "TypeError")
  | .undef => some (.error "TypeError")
  | .num _ => some (.ok [])
  | .bool _ => some (.ok [])
  | .date _ => some (.ok [])
  | .arr _ => none
  | .str _ => none

/-- `_.uniq`: deduplication keeping first occurrences. -/
def uniqFirstAux : List String → List String → List String
  | [], _ => []
  | x :: xs, seen =>
      if seen.contains x then uniqFirstAux xs seen
      else x :: uniqFirstAux xs (x :: seen)

/-- `_.uniq keys` as used on the modifier list in `modify`. -/
def uniqFirst (l : List String) : List String := uniqFirstAux l []

/-- One modifier applied to every one of its argument's keys, in order
(`keys.forEach` at Model.ts lines 477-480); the first exception stops the
walk and propagates. -/
def applyModifierKeys (m : String) (q : Value) :
    List String → Value → Option (Except String Value)
  | [], cur => some (.ok cur)
  | k :: ks, cur =>
      match lastStepModifier m cur k (jsGet q k) with
      | none => none
      | some (.error e) => some (.error e)
      | some (.ok cur') => applyModifierKeys m q ks cur'

/-- The modifier loop of `modify` (Model.ts lines 468-481): for each
distinct `$`-key of the update, check it is a known modifier, check its
argument has JS type `object`, then apply it to each of its keys. -/
def applyModifiers (q : Value) :
    List String → Value → Option (Except String Value)
  | [], cur => some (.ok cur)
  | m :: ms, cur =>
      if !(modifierNames.contains m) then some (.error "Unknown modifier")
      else if jsTypeof (jsGet q m) != JsType.objectT then
        some (.error "Modifier argument must be an object")
      else
        match jsKeys (jsGet q m) with
        | none => none
        | some (.error e) => some (.error e)
        | some (.ok ks) =>
            match applyModifierKeys m (jsGet q m) ks cur with
            | none => none
            | some (.error e) => some (.error e)
            | some (.ok cur') => applyModifiers q ms cur'

/-- The closing steps of `modify` (lines 484-489): validate the new
document's field names and refuse an `_id` change. -/
def modifyFinish (obj newDoc : Value) : Option (Except String Value) :=
  match checkObject newDoc with
  | .error e => some (.error e)
  | .ok _ =>
      if !(jsStrictEq (jsGet obj "_id") (jsGet newDoc "_id")) then
        some (.error "You can't change a document's _id")
      else some (.ok newDoc)

namespace Model

/-- `Model.modify` (Model.ts lines 447-490).  (Namespaced as in the
source's `module Model`, since the bare name is taken by the state monad.) -/
def modify (obj updateQuery : Value) : Option (Except String Value) :=
  match jsKeys updateQuery with
  | none => none
  | some (.error e) => some (.error e)
  | some (.ok keys) =>
      let dollarCount := (keys.filter headIsDollar).length
      if keys.contains "_id" && !(jsStrictEq (jsGet updateQuery "_id") (jsGet obj "_id")) then
        some (.error "You cannot change a document's _id")
      else if dollarCount != 0 && dollarCount != keys.length then
        some (.error "You cannot mix modifiers and normal fields")
      else if dollarCount == 0 then
        modifyFinish obj (jsSetProp (deepCopy updateQuery false) "_id" (jsGet obj "_id"))
      else
        match applyModifiers updateQuery (uniqFirst keys) (deepCopy obj false) with
        | none => none
        | some (.error e) => some (.error e)
        | some (.ok newDoc) => modifyFinish obj newDoc

end Model

theorem deepCopy_false : ∀ (v : Value), deepCopy v false = v := by
  suffices H : ∀ n (v : Value), sizeOf v ≤ n → deepCopy v false = v from
    fun v => H _ v le_rfl
  intro n
  induction n using Nat.strong_induction_on with
  | _ n ih =>
    intro v hsz
    cases v with
    | undef => rfl
    | null => rfl
    | num q => rfl
    | str s => rfl
    | bool b => rfl
    | date t => rfl
    | arr l =>
        simp only [deepCopy, Value.arr.injEq]
        induction l with
        | nil => rfl
        | cons x xs ihl =>
            simp only [deepCopyList, List.cons.injEq]
            constructor
            · exact ih (sizeOf x)
                (by have h1 := sizeOf_lt_of_mem_arr (List.mem_cons_self x xs); omega)
                x le_rfl
            · exact ihl (by simp only [Value.arr.sizeOf_spec, List.cons.sizeOf_spec] at hsz ⊢; omega)
    | obj kvs =>
        simp only [deepCopy, Value.obj.injEq]
        induction kvs with
        | nil => rfl
        | cons p rest ihl =>
            obtain ⟨k, v'⟩ := p
            simp only [deepCopyPairs, Bool.not_false, Bool.true_or, if_pos, List.cons.injEq,
              Prod.mk.injEq, true_and]
            refine ⟨?_, ?_⟩
            · exact ih (sizeOf v')
                (by
                  simp only [Value.obj.sizeOf_spec, List.cons.sizeOf_spec,
                    Prod.mk.sizeOf_spec] at hsz
                  omega)
                v' le_rfl
            · exact ihl (by
                simp only [Value.obj.sizeOf_spec, List.cons.sizeOf_spec] at hsz ⊢
                omega)

theorem lookup_setPairs_self : ∀ (kvs : List (String × Value)) (k : String) (x : Value),
    (jsSetProp.setPairs kvs k x).lookup k = some x := by
  intro kvs k x
  induction kvs with
  | nil => simp [jsSetProp.setPairs, List.lookup]
  | cons p rest ih =>
      obtain ⟨k', v'⟩ := p
      simp only [jsSetProp.setPairs]
      by_cases h : k' = k
      · subst h
        simp [List.lookup]
      · rw [if_neg h]
        simp only [List.lookup, beq_eq_false_iff_ne.2 (Ne.symm h)]
        exact ih

theorem mem_setPairs : ∀ {kvs : List (String × Value)} {k : String} {x : Value}
    {p : String × Value}, p ∈ jsSetProp.setPairs kvs k x → p = (k, x) ∨ p ∈ kvs := by
  intro kvs k x
  induction kvs with
  | nil =>
      intro p hp
      simp only [jsSetProp.setPairs, List.mem_singleton] at hp
      exact Or.inl hp
  | cons q rest ih =>
      intro p hp
      obtain ⟨k', v'⟩ := q
      simp only [jsSetProp.setPairs] at hp
      by_cases h : k' = k
      · rw [if_pos h] at hp
        rcases List.mem_cons.1 hp with h1 | h1
        · subst h; exact Or.inl h1
        · exact Or.inr (List.mem_cons_of_mem _ h1)
      · rw [if_neg h] at hp
        rcases List.mem_cons.1 hp with h1 | h1
        · exact Or.inr (by simp [h1])
        · rcases ih h1 with h2 | h2
          · exact Or.inl h2
          · exact Or.inr (List.mem_cons_of_mem _ h2)

theorem validValuePairs_setPairs : ∀ {kvs : List (String × Value)} {k : String} {x : Value},
    validValuePairs kvs = true → validKey k = true → validValue x = true →
    validValuePairs (jsSetProp.setPairs kvs k x) = true := by
  intro kvs k x
  induction kvs with
  | nil =>
      intro _ hk hx
      simp [jsSetProp.setPairs, validValuePairs, hk, hx]
  | cons p rest ih =>
      intro hv hk hx
      obtain ⟨k', v'⟩ := p
      simp only [validValuePairs, Bool.and_eq_true] at hv
      obtain ⟨⟨⟨hk', hfresh⟩, hv'⟩, hrest⟩ := hv
      simp only [jsSetProp.setPairs]
      by_cases h : k' = k
      · rw [if_pos h]
        simp [validValuePairs, hk', hfresh, hx, hrest]
      · rw [if_neg h]
        simp only [validValuePairs, Bool.and_eq_true]
        refine ⟨⟨⟨hk', ?_⟩, hv'⟩, ih hrest hk hx⟩
        rw [List.all_eq_true]
        intro q hq
        rcases mem_setPairs hq with h1 | h1
        · subst h1
          simpa using fun he => h he.symm
        · rw [List.all_eq_true] at hfresh
          exact hfresh q h1

theorem checkObject_ok_of_valid : ∀ (v : Value), validValue v = true →
    checkObject v = .ok () := by
  suffices H : ∀ n (v : Value), sizeOf v ≤ n → validValue v = true →
      checkObject v = .ok () from fun v hv => H _ v le_rfl hv
  intro n
  induction n using Nat.strong_induction_on with
  | _ n ih =>
    intro v hsz hv
    cases v with
    | undef => simp [validValue] at hv
    | null => rfl
    | num q => rfl
    | str s => rfl
    | bool b => rfl
    | date t => rfl
    | arr l =>
        simp only [validValue] at hv
        simp only [checkObject]
        induction l with
        | nil => rfl
        | cons x xs ihl =>
            simp only [validValueList, Bool.and_eq_true] at hv
            have hx : checkObject x = .ok () := ih (sizeOf x)
              (by have h1 := sizeOf_lt_of_mem_arr (List.mem_cons_self x xs); omega)
              x le_rfl hv.1
            simp only [checkObjectList, hx]
            exact ihl
              (by simp only [Value.arr.sizeOf_spec, List.cons.sizeOf_spec] at hsz ⊢; omega)
              hv.2
    | obj kvs =>
        simp only [validValue] at hv
        simp only [checkObject]
        induction kvs with
        | nil => rfl
        | cons p rest ihl =>
            obtain ⟨k, v'⟩ := p
            simp only [validValuePairs, Bool.and_eq_true] at hv
            obtain ⟨⟨⟨hk, _⟩, hv'⟩, hrest⟩ := hv
            have hx : checkObject v' = .ok () := ih (sizeOf v')
              (by
                simp only [Value.obj.sizeOf_spec, List.cons.sizeOf_spec,
                  Prod.mk.sizeOf_spec] at hsz
                omega)
              v' le_rfl hv'
            simp only [checkObjectPairs, checkKeyE_ok_of_validKey hk, hx]
            exact ihl
              (by simp only [Value.obj.sizeOf_spec, List.cons.sizeOf_spec] at hsz ⊢; omega)
              hrest

theorem contains_map_fst_eq_isSome_lookup :
    ∀ (kvs : List (String × Value)) (k : String),
      (kvs.map Prod.fst).contains k = (kvs.lookup k).isSome := by
  intro kvs k
  induction kvs with
  | nil => rfl
  | cons p rest ih =>
      obtain ⟨k', v'⟩ := p
      by_cases h : k = k'
      · subst h
        simp [List.lookup]
      · have h1 : (k == k') = false := beq_eq_false_iff_ne.2 h
        have h2 : (k' == k) = false := beq_eq_false_iff_ne.2 (Ne.symm h)
        simp only [List.map_cons, List.contains_cons, List.lookup, h1, h2, Bool.false_or]
        exact ih

theorem headIsDollar_of_valid {qkvs : List (String × Value)}
    (hqp : validValuePairs qkvs = true) :
    ∀ k ∈ qkvs.map Prod.fst, headIsDollar k = false := by
  intro k hk
  obtain ⟨p, hp, hpk⟩ := List.mem_map.1 hk
  subst hpk
  have h := (validValuePairs_parts hqp hp).1
  simp only [validKey, Bool.and_eq_true, Bool.not_eq_true'] at h
  exact h.1

/-- C6: full-replace update law.  For a document with a string `_id` and a
modifier-free update document `q` with valid field names: if `q._id` is
present and (strictly) differs from `obj._id`, `modify` fails with the
immutable-`_id` error; otherwise `modify(obj, q)` is exactly
`deepCopy(q)` with its `_id` set to `obj._id`. -/
theorem claim_C6_modify_full_replace (kvs qkvs : List (String × Value)) (s : String)
    (hid : jsGet (.obj kvs) "_id" = .str s)
    (hq : validValue (.obj qkvs) = true) :
    (∀ w, qkvs.lookup "_id" = some w → jsStrictEq w (.str s) = false →
      Model.modify (.obj kvs) (.obj qkvs) =
        some (.error "You cannot change a document's _id")) ∧
    ((∀ w, qkvs.lookup "_id" = some w → jsStrictEq w (.str s) = true) →
      Model.modify (.obj kvs) (.obj qkvs) =
        some (.ok (jsSetProp (deepCopy (.obj qkvs) false) "_id" (.str s)))) := by
  have hqp : validValuePairs qkvs = true := by simpa [validValue] using hq
  have hnod := headIsDollar_of_valid hqp
  have hfil : (qkvs.map Prod.fst).filter headIsDollar = [] := by
    rw [List.filter_eq_nil_iff]
    intro a ha
    simp [hnod a ha]
  constructor
  · intro w hw hne
    have hcont : (qkvs.map Prod.fst).contains "_id" = true := by
      rw [contains_map_fst_eq_isSome_lookup, hw]; rfl
    have hget : jsGet (.obj qkvs) "_id" = w := by
      simp only [jsGet, hw, Option.getD_some]
    have hcond : (((qkvs.map Prod.fst).contains "_id") &&
        !(jsStrictEq (jsGet (.obj qkvs) "_id") (jsGet (.obj kvs) "_id"))) = true := by
      rw [hcont, hget, hid, hne]; rfl
    simp only [Model.modify, jsKeys]
    rw [if_pos hcond]
  · intro hall
    have hguard : ((qkvs.map Prod.fst).contains "_id" &&
        !(jsStrictEq (jsGet (.obj qkvs) "_id") (jsGet (.obj kvs) "_id"))) = false := by
      cases hlk : qkvs.lookup "_id" with
      | none =>
          have hc : (qkvs.map Prod.fst).contains "_id" = false := by
            rw [contains_map_fst_eq_isSome_lookup, hlk]; rfl
          rw [hc]; rfl
      | some w =>
          have heq := hall w hlk
          have hget : jsGet (.obj qkvs) "_id" = w := by
            simp only [jsGet, hlk, Option.getD_some]
          rw [hget, hid, heq]
          simp
    have hvalidNew : validValue (.obj (jsSetProp.setPairs qkvs "_id" (.str s))) = true := by
      simp only [validValue]
      exact validValuePairs_setPairs hqp (by decide) rfl
    have hcheck : checkObject (jsSetProp (deepCopy (.obj qkvs) false) "_id" (.str s)) =
        .ok () := by
      rw [deepCopy_false]
      exact checkObject_ok_of_valid _ hvalidNew
    have hgetNew : jsGet (jsSetProp (deepCopy (.obj qkvs) false) "_id" (.str s)) "_id" =
        .str s := by
      rw [deepCopy_false]
      simp only [jsSetProp, jsGet, lookup_setPairs_self, Option.getD_some]
    simp only [Model.modify, jsKeys]
    rw [if_neg (by rw [hguard]; simp), hfil]
    rw [if_neg (by simp), if_pos (by simp), hid]
    simp only [modifyFinish, hcheck, hgetNew, hid]
    have hse : jsStrictEq (.str s) (.str s) = true := by simp [jsStrictEq]
    rw [if_neg (by rw [hse]; simp)]

/-- Witness for C6: a differing `_id` in the replacement is rejected, and a
modifier-free update replaces the document and re-attaches `_id`. -/
theorem claim_C6_witness :
    Model.modify (.obj [("_id", .str "z"), ("a", .num 1)]) (.obj [("_id", .str "y")]) =
      some (.error "You cannot change a document's _id") ∧
    Model.modify (.obj [("_id", .str "z"), ("a", .num 1)]) (.obj [("b", .num 2)]) =
      some (.ok (jsSetProp (deepCopy (.obj [("b", .num 2)]) false) "_id" (.str "z"))) :=
  ⟨(claim_C6_modify_full_replace [("_id", .str "z"), ("a", .num 1)] [("_id", .str "y")] "z"
      rfl rfl).1 (.str "y") rfl rfl,
   (claim_C6_modify_full_replace [("_id", .str "z"), ("a", .num 1)] [("b", .num 2)] "z"
      rfl rfl).2 (fun w hw => by simp [List.lookup] at hw)⟩

/-! ## `areComparable` and the comparison operators (Model.ts lines 575-601) -/

/-- Is the value a string, a number or a date — the types named in the
first test of `areComparable`? -/
def isStrNumDate : Value → Bool
  | .str _ => true
  | .num _ => true
  | .date _ => true
  | _ => false

/-- Is the value a string? -/
def isStr : Value → Bool
  | .str _ => true
  | _ => false

/-- Is the value a date? -/
def isDateV : Value → Bool
  | .date _ => true
  | _ => false

/-- `Model.areComparable` (lines 575-584): false when neither side is a
string, number or date, false when the `typeof` tags differ, true
otherwise.  `typeof` of a `Date` is `"object"`, so a date counts as
comparable not only with dates but also with `null`, arrays and plain
objects. -/
def areComparable (a b : Value) : Bool :=
  if !(isStrNumDate a) && !(isStrNumDate b) then false
  else if jsTypeof a != jsTypeof b then false
  else true

/-- JS relational `a < b` on the pairs `areComparable` admits.  Number,
string and date pairs are exact; a date against `null` coerces to its
timestamp against `0`; a date against a plain object compares a number
with NaN, hence false; a date against an empty array coerces through `""`
to `0`; a date against a nonempty array goes through host date/number
string conversion and is left undetermined, as are the pairs
`areComparable` rejects (never consulted by the operators below). -/
def jsLtV : Value → Value → Option Bool
  | .num a, .num b => some (decide (a < b))
  | .str a, .str b => some (jsStrLt a b)
  | .date a, .date b => some (decide (a < b))
  | .date t, .null => some (decide (t < 0))
  | .null, .date t => some (decide (0 < t))
  | .date _, .obj _ => some false
  | .obj _, .date _ => some false
  | .date t, .arr [] => some (decide (t < 0))
  | .arr [], .date t => some (decide (0 < t))
  | _, _ => none

/-- JS `a <= b` on the same pairs (`<=` is not the negation of `<` in JS:
a NaN comparison makes both false, hence the separate plain-object case). -/
def jsLeV : Value → Value → Option Bool
  | .num a, .num b => some (decide (a ≤ b))
  | .str a, .str b => some (!(jsStrLt b a))
  | .date a, .date b => some (decide (a ≤ b))
  | .date t, .null => some (decide (t ≤ 0))
  | .null, .date t => some (decide (0 ≤ t))
  | .date _, .obj _ => some false
  | .obj _, .date _ => some false
  | .date t, .arr [] => some (decide (t ≤ 0))
  | .arr [], .date t => some (decide (0 ≤ t))
  | _, _ => none

/-- `comparisonFunctions.$lt` (Model.ts lines 593-595):
`areComparable(a, b) && a < b`. -/
def dollarLt (a b : Value) : Option Bool :=
  if areComparable a b then jsLtV a b else some false

/-- `comparisonFunctions.$lte`: `areComparable(a, b) && a <= b`. -/
def dollarLte (a b : Value) : Option Bool :=
  if areComparable a b then jsLeV a b else some false

/-- `comparisonFunctions.$gt`: `areComparable(a, b) && a > b`. -/
def dollarGt (a b : Value) : Option Bool :=
  if areComparable a b then jsLtV b a else some false

/-- `comparisonFunctions.$gte`: `areComparable(a, b) && a >= b`. -/
def dollarGte (a b : Value) : Option Bool :=
  if areComparable a b then jsLeV b a else some false

/-- Counterexample to C7 as stated: `Date(3)` and `null` are not both
numbers, both strings or both dates (`null` is none of the three), yet
`$gt(Date(3), null)` returns `true` — `areComparable` accepts the pair
because both have JS type `"object"`, and the coerced comparison
`3 > 0` holds. -/
theorem claim_C7_counterexample :
    dollarGt (Value.date 3) Value.null = some true ∧
      isStrNumDate Value.null = false := by
  constructor <;> rfl

/-- C7 as amended: each of `$lt`, `$lte`, `$gt`, `$gte` returns false
unless `a` and `b` are comparable, where the code's comparability accepts
both numbers, both strings, or both values of JS type `object` with at
least one of them a date (hence also date-against-null/array/object); on
number, string and date pairs the operator returns the corresponding
order relation. -/
theorem claim_C7_comparison_operators :
    (∀ a b : Value, areComparable a b = false →
      dollarLt a b = some false ∧ dollarLte a b = some false ∧
      dollarGt a b = some false ∧ dollarGte a b = some false) ∧
    (∀ a b : Value, areComparable a b = true ↔
      ((isNum a && isNum b) = true ∨ (isStr a && isStr b) = true ∨
        (jsTypeof a = .objectT ∧ jsTypeof b = .objectT ∧ (isDateV a || isDateV b) = true))) ∧
    (∀ x y : ℚ, dollarLt (.num x) (.num y) = some (decide (x < y)) ∧
      dollarLte (.num x) (.num y) = some (decide (x ≤ y)) ∧
      dollarGt (.num x) (.num y) = some (decide (y < x)) ∧
      dollarGte (.num x) (.num y) = some (decide (y ≤ x))) ∧
    (∀ x y : String, dollarLt (.str x) (.str y) = some (jsStrLt x y) ∧
      dollarLte (.str x) (.str y) = some (!(jsStrLt y x)) ∧
      dollarGt (.str x) (.str y) = some (jsStrLt y x) ∧
      dollarGte (.str x) (.str y) = some (!(jsStrLt x y))) ∧
    (∀ x y : Int, dollarLt (.date x) (.date y) = some (decide (x < y)) ∧
      dollarLte (.date x) (.date y) = some (decide (x ≤ y)) ∧
      dollarGt (.date x) (.date y) = some (decide (y < x)) ∧
      dollarGte (.date x) (.date y) = some (decide (y ≤ x))) := by
  refine ⟨?_, ?_, ?_, ?_, ?_⟩
  · intro a b h
    simp [dollarLt, dollarLte, dollarGt, dollarGte, h]
  · intro a b
    cases a <;> cases b <;>
      simp [areComparable, isNum, isStr, isDateV, jsTypeof, isStrNumDate]
  · intro x y
    refine ⟨?_, ?_, ?_, ?_⟩ <;> rfl
  · intro x y
    refine ⟨?_, ?_, ?_, ?_⟩ <;> rfl
  · intro x y
    refine ⟨?_, ?_, ?_, ?_⟩ <;> rfl

/-- Witness for the amended C7 at concrete inputs: a boolean pair is not
comparable and every operator answers false; on numbers the order relation
is returned. -/
theorem claim_C7_witness :
    (dollarLt (.bool true) (.bool false) = some false ∧
      dollarLte (.bool true) (.bool false) = some false ∧
      dollarGt (.bool true) (.bool false) = some false ∧
      dollarGte (.bool true) (.bool false) = some false) ∧
    dollarLt (.num 1) (.num 2) = some (decide ((1 : ℚ) < 2)) :=
  ⟨claim_C7_comparison_operators.1 (.bool true) (.bool false) (by rfl),
   (claim_C7_comparison_operators.2.2.1 1 2).1⟩

theorem mem_of_lookup : ∀ {kvs : List (String × Value)} {k : String} {x : Value},
    kvs.lookup k = some x → (k, x) ∈ kvs := by
  intro kvs k x
  induction kvs with
  | nil => intro h; simp [List.lookup] at h
  | cons p rest ih =>
      intro h
      obtain ⟨k', v'⟩ := p
      simp only [List.lookup] at h
      by_cases he : (k == k') = true
      · simp only [he] at h
        cases h
        have heq : k = k' := eq_of_beq he
        subst heq
        exact List.mem_cons_self _ _
      · simp only [eq_false_of_ne_true he] at h
        exact List.mem_cons_of_mem _ (ih h)

theorem setPairs_lookup_same : ∀ {kvs : List (String × Value)} {k : String} {x : Value},
    kvs.lookup k = some x → jsSetProp.setPairs kvs k x = kvs := by
  intro kvs k x
  induction kvs with
  | nil => intro h; simp [List.lookup] at h
  | cons p rest ih =>
      intro h
      obtain ⟨k', v'⟩ := p
      simp only [List.lookup] at h
      simp only [jsSetProp.setPairs]
      by_cases he : (k == k') = true
      · simp only [he] at h
        cases h
        rw [if_pos (eq_of_beq he).symm]
      · simp only [eq_false_of_ne_true he] at h
        rw [if_neg (fun hc => absurd (by simp [hc] : (k == k') = true) he)]
        rw [ih h]

theorem lookup_setPairs_ne : ∀ {kvs : List (String × Value)} {k k' : String} {x : Value},
    k' ≠ k → (jsSetProp.setPairs kvs k x).lookup k' = kvs.lookup k' := by
  intro kvs k k' x hne
  induction kvs with
  | nil =>
      simp [jsSetProp.setPairs, List.lookup, beq_eq_false_iff_ne.2 hne]
  | cons p rest ih =>
      obtain ⟨a, b⟩ := p
      simp only [jsSetProp.setPairs]
      by_cases he : a = k
      · rw [if_pos he]
        subst he
        simp only [List.lookup, beq_eq_false_iff_ne.2 hne]
      · rw [if_neg he]
        simp only [List.lookup]
        by_cases hk : (k' == a) = true
        · simp only [hk]
        · simp only [eq_false_of_ne_true hk]
          exact ih

theorem validValueList_of_forall : ∀ {l : List Value},
    (∀ x ∈ l, validValue x = true) → validValueList l = true := by
  intro l
  induction l with
  | nil => intro _; rfl
  | cons x xs ih =>
      intro h
      simp only [validValueList, Bool.and_eq_true]
      exact ⟨h x (List.mem_cons_self _ _), ih (fun y hy => h y (List.mem_cons_of_mem _ hy))⟩

/-- Running `modify` with a single-modifier update `{m: {f: v}}` comes down
to the last-step modifier followed by the closing validation. -/
theorem modify_one_modifier (kvs : List (String × Value)) (m f : String) (v : Value)
    (hmem : modifierNames.contains m = true) (hdol : headIsDollar m = true)
    (hmid : m ≠ "_id") :
    Model.modify (.obj kvs) (.obj [(m, .obj [(f, v)])]) =
      (match lastStepModifier m (.obj kvs) f v with
       | none => none
       | some (.error e) => some (.error e)
       | some (.ok newDoc) => modifyFinish (.obj kvs) newDoc) := by
  have hne : ("_id" == m) = false := beq_eq_false_iff_ne.2 (Ne.symm hmid)
  have hq : jsKeys (Value.obj [(m, Value.obj [(f, v)])]) = some (.ok [m]) := rfl
  have hne2 : ("_id" : String) ≠ m := Ne.symm hmid
  simp only [Model.modify, hq]
  rw [if_neg (by simp [List.contains_cons, hne, hne2])]
  rw [if_neg (by simp [List.filter, hdol])]
  rw [if_neg (by simp [List.filter, hdol])]
  have hu : uniqFirst [m] = [m] := rfl
  have hgm : jsGet (Value.obj [(m, Value.obj [(f, v)])]) m = .obj [(f, v)] := by
    simp [jsGet, List.lookup]
  have hgf : jsGet (Value.obj [(f, v)]) f = v := by
    simp [jsGet, List.lookup]
  simp only [hu, applyModifiers, hgm, hmem, Bool.not_true, jsTypeof, bne_self_eq_false,
    Bool.false_eq_true, if_false, jsKeys, applyModifierKeys, hgf, deepCopy_false]
  cases hls : lastStepModifier m (Value.obj kvs) f v with
  | none => rfl
  | some r =>
      cases r with
      | error e => rfl
      | ok newDoc => simp [applyModifiers]

/-! ## C9: `$pop` (Model.ts lines 361-371) and C8: `$push` with `$each`/`$slice` -/

/-- The rational `1/2`, given by its reduced fraction so that the kernel
can evaluate every comparison on it. -/
def oneHalf : ℚ := ⟨1, 2, by decide, by decide⟩

theorem modifyFinish_setPairs_ok {kvs : List (String × Value)} {f : String} {x : Value}
    (hval : validValuePairs kvs = true) (hkey : validKey f = true)
    (hx : validValue x = true) (hfne : f ≠ "_id")
    (hid : jsStrictEq (jsGet (.obj kvs) "_id") (jsGet (.obj kvs) "_id") = true) :
    modifyFinish (.obj kvs) (.obj (jsSetProp.setPairs kvs f x)) =
      some (.ok (.obj (jsSetProp.setPairs kvs f x))) := by
  have hco : checkObject (.obj (jsSetProp.setPairs kvs f x)) = .ok () :=
    checkObject_ok_of_valid _ (by
      simpa [validValue] using validValuePairs_setPairs hval hkey hx)
  have hlook : (jsSetProp.setPairs kvs f x).lookup "_id" = kvs.lookup "_id" :=
    lookup_setPairs_ne (Ne.symm hfne)
  have hid' : jsStrictEq (jsGet (.obj kvs) "_id")
      (jsGet (.obj (jsSetProp.setPairs kvs f x)) "_id") = true := by
    simp only [jsGet, hlook]
    simpa [jsGet] using hid
  simp [modifyFinish, hco, hid']

theorem modifyFinish_self_ok {kvs : List (String × Value)}
    (hval : validValuePairs kvs = true)
    (hid : jsStrictEq (jsGet (.obj kvs) "_id") (jsGet (.obj kvs) "_id") = true) :
    modifyFinish (.obj kvs) (.obj kvs) = some (.ok (.obj kvs)) := by
  have hco : checkObject (.obj kvs) = .ok () :=
    checkObject_ok_of_valid _ (by simpa [validValue] using hval)
  simp [modifyFinish, hco, hid]

/-- C9: counterexample to "fails when the operand is not an integer".  The
source only checks `typeof value === 'number'`, so the non-integer `0.5`
is accepted and, being positive, silently pops the LAST element instead of
raising the advertised error. -/
theorem claim_C9_counterexample :
    Model.modify (.obj [("arr", .arr [.str "a", .str "b"])])
        (.obj [("$pop", .obj [("arr", .num oneHalf)])]) =
      some (.ok (.obj [("arr", .arr [.str "a"])])) := rfl

/-- C9 (amended): `$pop` on a document whose addressed field holds an
array: any positive NUMBER (integrality is not checked — see the
counterexample) removes the last element, any negative number the first,
`0` is a no-op, and on an empty array every number is a no-op; a
non-number operand fails with the integer-naming error, and a non-array
field fails with the non-array error. -/
theorem claim_C9_pop_semantics (kvs : List (String × Value)) (l : List Value) (f : String)
    (hkey : validKey f = true) (hfne : f ≠ "_id")
    (hval : validValuePairs kvs = true)
    (hid : jsStrictEq (jsGet (.obj kvs) "_id") (jsGet (.obj kvs) "_id") = true)
    (hf : kvs.lookup f = some (.arr l)) :
    (∀ q : ℚ, 0 < q →
      Model.modify (.obj kvs) (.obj [("$pop", .obj [(f, .num q)])]) =
        some (.ok (.obj (jsSetProp.setPairs kvs f (.arr l.dropLast))))) ∧
    (∀ q : ℚ, q < 0 →
      Model.modify (.obj kvs) (.obj [("$pop", .obj [(f, .num q)])]) =
        some (.ok (.obj (jsSetProp.setPairs kvs f (.arr l.tail))))) ∧
    (Model.modify (.obj kvs) (.obj [("$pop", .obj [(f, .num 0)])]) =
        some (.ok (.obj kvs))) ∧
    (l = [] → ∀ q : ℚ,
      Model.modify (.obj kvs) (.obj [("$pop", .obj [(f, .num q)])]) =
        some (.ok (.obj kvs))) ∧
    (∀ s : String,
      Model.modify (.obj kvs) (.obj [("$pop", .obj [(f, .str s)])]) =
        some (.error "isn't an integer, can't use it with $pop")) ∧
    (∀ (kvs2 : List (String × Value)) (v : Value),
      (∀ l2, jsGet (.obj kvs2) f ≠ .arr l2) →
      Model.modify (.obj kvs2) (.obj [("$pop", .obj [(f, v)])]) =
        some (.error "Can't $pop an element from non-array values")) := by
  have hmem9 : modifierNames.contains "$pop" = true := by decide
  have hdol9 : headIsDollar "$pop" = true := rfl
  have hmid9 : ("$pop" : String) ≠ "_id" := by decide
  have hget : jsGet (.obj kvs) f = .arr l := by simp [jsGet, hf]
  have hmemf := mem_of_lookup hf
  have hl : validValueList l = true := by
    simpa [validValue] using (validValuePairs_parts hval hmemf).2
  have hsub : ∀ {l' : List Value}, List.Sublist l' l → validValue (.arr l') = true := by
    intro l' hs
    simp only [validValue]
    exact validValueList_of_forall
      (fun x hx => validValue_of_mem_list hl (hs.subset hx))
  have hpop : lastStepModifier "$pop" = popModifier := by
    funext o g w
    rfl
  have hpos : ∀ q : ℚ, 0 < q →
      Model.modify (.obj kvs) (.obj [("$pop", .obj [(f, .num q)])]) =
        some (.ok (.obj (jsSetProp.setPairs kvs f (.arr l.dropLast)))) := by
    intro q hq
    rw [modify_one_modifier kvs "$pop" f (.num q) hmem9 hdol9 hmid9]
    have hls : lastStepModifier "$pop" (.obj kvs) f (.num q) =
        some (.ok (.obj (jsSetProp.setPairs kvs f (.arr l.dropLast)))) := by
      rw [hpop]
      simp only [popModifier, hget]
      rw [if_neg (ne_of_gt hq), if_pos hq]
      rfl
    rw [hls]
    exact modifyFinish_setPairs_ok hval hkey (hsub (List.dropLast_sublist l)) hfne hid
  have hneg : ∀ q : ℚ, q < 0 →
      Model.modify (.obj kvs) (.obj [("$pop", .obj [(f, .num q)])]) =
        some (.ok (.obj (jsSetProp.setPairs kvs f (.arr l.tail)))) := by
    intro q hq
    rw [modify_one_modifier kvs "$pop" f (.num q) hmem9 hdol9 hmid9]
    have hls : lastStepModifier "$pop" (.obj kvs) f (.num q) =
        some (.ok (.obj (jsSetProp.setPairs kvs f (.arr l.tail)))) := by
      rw [hpop]
      simp only [popModifier, hget]
      rw [if_neg (ne_of_lt hq), if_neg (not_lt.2 hq.le)]
      rfl
    rw [hls]
    exact modifyFinish_setPairs_ok hval hkey (hsub (List.tail_sublist l)) hfne hid
  have hzero :
      Model.modify (.obj kvs) (.obj [("$pop", .obj [(f, .num 0)])]) =
        some (.ok (.obj kvs)) := by
    rw [modify_one_modifier kvs "$pop" f (.num 0) hmem9 hdol9 hmid9]
    have hls : lastStepModifier "$pop" (.obj kvs) f (.num 0) =
        some (.ok (.obj kvs)) := by
      rw [hpop]
      simp only [popModifier, hget]
      rfl
    rw [hls]
    exact modifyFinish_self_ok hval hid
  have hempty : l = [] → ∀ q : ℚ,
      Model.modify (.obj kvs) (.obj [("$pop", .obj [(f, .num q)])]) =
        some (.ok (.obj kvs)) := by
    rintro rfl q
    rcases lt_trichotomy q 0 with h | h | h
    · rw [hneg q h]
      simp only [List.tail_nil]
      rw [setPairs_lookup_same hf]
    · subst h; exact hzero
    · rw [hpos q h]
      simp only [List.dropLast_nil]
      rw [setPairs_lookup_same hf]
  have hstr : ∀ s : String,
      Model.modify (.obj kvs) (.obj [("$pop", .obj [(f, .str s)])]) =
        some (.error "isn't an integer, can't use it with $pop") := by
    intro s
    rw [modify_one_modifier kvs "$pop" f (.str s) hmem9 hdol9 hmid9]
    have hls : lastStepModifier "$pop" (.obj kvs) f (.str s) =
        some (.error "isn't an integer, can't use it with $pop") := by
      rw [hpop]
      simp only [popModifier, hget]
    rw [hls]
  have hnon : ∀ (kvs2 : List (String × Value)) (v : Value),
      (∀ l2, jsGet (.obj kvs2) f ≠ .arr l2) →
      Model.modify (.obj kvs2) (.obj [("$pop", .obj [(f, v)])]) =
        some (.error "Can't $pop an element from non-array values") := by
    intro kvs2 v hno
    rw [modify_one_modifier kvs2 "$pop" f v hmem9 hdol9 hmid9]
    have hls : lastStepModifier "$pop" (.obj kvs2) f v =
        some (.error "Can't $pop an element from non-array values") := by
      rw [hpop]
      simp only [popModifier]
    rw [hls]
  exact ⟨hpos, hneg, hzero, hempty, hstr, hnon⟩

/-- C9 witness: popping with `+1` from `{_id:"1", arr:["a","b"]}` leaves
`{_id:"1", arr:["a"]}`. -/
theorem claim_C9_witness :
    Model.modify (.obj [("_id", .str "1"), ("arr", .arr [.str "a", .str "b"])])
        (.obj [("$pop", .obj [("arr", .num 1)])]) =
      some (.ok (.obj [("_id", .str "1"), ("arr", .arr [.str "a"])])) :=
  (claim_C9_pop_semantics
      [("_id", Value.str "1"), ("arr", Value.arr [Value.str "a", Value.str "b"])]
      [Value.str "a", Value.str "b"] "arr"
      (by decide) (by decide) (by rfl) (by rfl) (by rfl)).1 1 one_pos

theorem validValueList_append {l1 l2 : List Value}
    (h1 : validValueList l1 = true) (h2 : validValueList l2 = true) :
    validValueList (l1 ++ l2) = true := by
  refine validValueList_of_forall (fun x hx => ?_)
  rcases List.mem_append.1 hx with h | h
  · exact validValue_of_mem_list h1 h
  · exact validValue_of_mem_list h2 h

/-- C8: `$push` with `$each` and `$slice`.  First the spec's concrete
example; then the general law: a negative `$slice` whose truncated
magnitude is at least the post-push length keeps the whole post-push
array (`slice(max(0, n + s), n)` with `n + s ≤ 0` is `slice(0, n)`). -/
theorem claim_C8_push_each_slice (kvs : List (String × Value)) (pre each : List Value)
    (f : String)
    (hkey : validKey f = true) (hfne : f ≠ "_id")
    (hval : validValuePairs kvs = true)
    (hid : jsStrictEq (jsGet (.obj kvs) "_id") (jsGet (.obj kvs) "_id") = true)
    (hf : kvs.lookup f = some (.arr pre))
    (heach : validValueList each = true) :
    (Model.modify (.obj [("arr", .arr [.str "hello"])])
        (.obj [("$push", .obj [("arr", .obj [("$each",
            .arr [.str "w", .str "e", .str "x"]), ("$slice", .num (-2))])])]) =
      some (.ok (.obj [("arr", .arr [.str "e", .str "x"])]))) ∧
    (∀ s : ℚ, s < 0 → ((pre.length + each.length : ℕ) : Int) + qTrunc s ≤ 0 →
      Model.modify (.obj kvs)
          (.obj [("$push", .obj [(f, .obj [("$each", .arr each), ("$slice", .num s)])])]) =
        some (.ok (.obj (jsSetProp.setPairs kvs f (.arr (pre ++ each)))))) := by
  constructor
  · rfl
  · intro s hneg hmag
    have hmem8 : modifierNames.contains "$push" = true := by decide
    have hdol8 : headIsDollar "$push" = true := rfl
    have hmid8 : ("$push" : String) ≠ "_id" := by decide
    have hget : jsGet (.obj kvs) f = .arr pre := by simp [jsGet, hf]
    have hhas : jsHasKey (Value.obj kvs) f = true := by simp [jsHasKey, hf]
    have hdot : f.data.contains '.' = false := by
      simp only [validKey, Bool.and_eq_true, Bool.not_eq_true'] at hkey
      exact hkey.2
    have hpre : validValueList pre = true := by
      simpa [validValue] using (validValuePairs_parts hval (mem_of_lookup hf)).2
    rw [modify_one_modifier kvs "$push" f
        (.obj [("$each", .arr each), ("$slice", .num s)]) hmem8 hdol8 hmid8]
    have hmax : max 0 ((((pre ++ each).length : ℕ) : Int) + qTrunc s) = 0 :=
      max_eq_left (by simpa [List.length_append] using hmag)
    have hslice : jsArraySlice (pre ++ each) 0 (((pre ++ each).length : ℕ) : Int) =
        pre ++ each := by
      simp [jsArraySlice]
      omega
    have hls : lastStepModifier "$push" (.obj kvs) f
        (.obj [("$each", .arr each), ("$slice", .num s)]) =
        some (.ok (.obj (jsSetProp.setPairs (jsSetProp.setPairs kvs f
          (.arr (pre ++ each))) f (.arr (pre ++ each))))) := by
      have hp : lastStepModifier "$push" = pushModifier := by
        funext o g w
        rfl
      rw [hp]
      have h2 : jsGet (Value.obj [("$each", Value.arr each),
          ("$slice", Value.num s)]) "$slice" = Value.num s := rfl
      have h3 : jsGet (Value.obj [("$each", Value.arr each),
          ("$slice", Value.num s)]) "$each" = Value.arr each := rfl
      have hjs : jsStrictEq (Value.arr each) Value.undef = false := rfl
      have hObj : isObjectTypeNonNull (Value.obj [("$each", Value.arr each),
          ("$slice", Value.num s)]) = true := rfl
      have hTr : jsTruthy (Value.arr each) = true := rfl
      have hjs2 : jsStrictEq (Value.num s) Value.undef = false := rfl
      have hD : decide (3 ≤ jsKeysLen (Value.obj [("$each", Value.arr each),
          ("$slice", Value.num s)])) = false := rfl
      simp only [pushModifier, hdot, Bool.false_eq_true, if_false, hhas, if_true, hget,
        h3, hjs, Bool.and_false, hObj, hTr, Bool.and_self, Bool.true_and, if_true,
        h2, hjs2, hD, Bool.or_false, Bool.false_or, Bool.or_self]
      rw [if_neg (ne_of_lt hneg), if_pos hneg]
      simp only [jsSetProp, hmax, hslice]
    rw [hls]
    rw [setPairs_lookup_same (lookup_setPairs_self kvs f (.arr (pre ++ each)))]
    exact modifyFinish_setPairs_ok hval hkey
      (by simpa [validValue] using validValueList_append hpre heach) hfne hid

/-- C8 witness: pushing `["w","e","x"]` with `$slice: -5` onto
`{arr:["hello"]}`: the magnitude 5 exceeds the post-push length 4, so the
whole post-push array survives. -/
theorem claim_C8_witness :
    Model.modify (.obj [("arr", .arr [.str "hello"])])
        (.obj [("$push", .obj [("arr", .obj [("$each",
            .arr [.str "w", .str "e", .str "x"]), ("$slice", .num (-5))])])]) =
      some (.ok (.obj [("arr",
        .arr [.str "hello", .str "w", .str "e", .str "x"])])) :=
  (claim_C8_push_each_slice [("arr", Value.arr [Value.str "hello"])]
      [Value.str "hello"] [Value.str "w", Value.str "e", Value.str "x"] "arr"
      (by decide) (by decide) (by rfl) (by rfl) (by rfl) (by rfl)).2
    (-5) (by norm_num) (by decide)

/-! ## C3: `Executor` (Executor.ts lines 42-58) -/

/-- The observable state of an `Executor`: the public `isReady` flag, the
private `_buffer`, and the run queue (the tasks handed to the async
`queue`, in submission order).  Tasks are opaque and represented by ids. -/
structure ExecutorState where
  isReady : Bool
  buffer : List Nat
  queue : List Nat
deriving DecidableEq

/-- `new Executor()`: `isReady = false`, empty buffer, empty queue. -/
def execInit : ExecutorState := ⟨false, [], []⟩

/-- `Executor.push(task, forceQueuing)` (lines 42-48): ready or forced
tasks go to the run queue, everything else to the buffer. -/
def execPush (s : ExecutorState) (task : Nat) (forceQueuing : Bool) : ExecutorState :=
  if s.isReady || forceQueuing then { s with queue := s.queue ++ [task] }
  else { s with buffer := s.buffer ++ [task] }

/-- `Executor.processBuffer` (lines 50-58) as written: the method assigns
`this.ready = true` and `this.buffer = []`, but the class fields are named
`isReady` and `_buffer`, so in JavaScript these two assignments create new
`ready`/`buffer` properties and leave `isReady` and `_buffer` untouched;
only the loop pushing every buffered task onto the run queue acts on the
modelled state. -/
def execProcessBuffer (s : ExecutorState) : ExecutorState :=
  { s with queue := s.queue ++ s.buffer }

/-- C3: `processBuffer` does move the buffered tasks to the run queue in
order, but the executor is NOT left in the ready state and the buffer is
NOT emptied: after buffering one task and calling `processBuffer`,
`isReady` is still `false`, the buffer still holds the task, a subsequent
unforced `push` lands in the buffer instead of the run queue, and a second
`processBuffer` enqueues the first task again. -/
theorem claim_C3_processBuffer_not_ready :
    execProcessBuffer (execPush execInit 0 false) =
      { isReady := false, buffer := [0], queue := [0] } ∧
    execPush (execProcessBuffer (execPush execInit 0 false)) 1 false =
      { isReady := false, buffer := [0, 1], queue := [0] } ∧
    execProcessBuffer (execProcessBuffer (execPush execInit 0 false)) =
      { isReady := false, buffer := [0], queue := [0, 0] } := by
  decide

/-! ## C2: `Persistence.treatRawData` corruption check (part_001 lines 221-260) -/

/-- The `_corruptAlertThreshold` field of `Persistence`.  The constructor
(part_001 lines 24-76) never assigns it — the line
`this.corruptAlertThreshold = options.corruptAlertThreshold !== undefined ?
options.corruptAlertThreshold : 0.1` sits inside a commented-out block —
so the field stays `undefined`, which `none` models. -/
def corruptAlertThresholdField : Option ℚ := none

/-- JS `x > y` for a number `x` and the possibly-`undefined` threshold:
`undefined` coerces to `NaN` and every comparison with `NaN` is `false`. -/
def jsGtNum (x : ℚ) : Option ℚ → Bool
  | none => false
  | some y => decide (x > y)

/-- Whether deserializing one line of the data file threw. -/
def isCorruptLine : Except String Value → Bool
  | .error _ => true
  | .ok _ => false

/-- The `corruptItems` counter of `treatRawData`: starts at `-1` (the
trailing empty line of a data file fails to parse, and is forgiven), and
is incremented once per line whose deserialization throws. -/
def corruptItemsCount (lines : List (Except String Value)) : Int :=
  -1 + (lines.filter isCorruptLine).length

/-- The corruption check of `Persistence.treatRawData` (lines 251-253)
over the per-line deserialization outcomes of the split raw data: `true`
iff `data.length > 0 && corruptItems / data.length >
this._corruptAlertThreshold` raises the corruption error. -/
def treatRawDataRaisesCorruption (lines : List (Except String Value)) : Bool :=
  decide (0 < lines.length)
    && jsGtNum ((corruptItemsCount lines : ℚ) / (lines.length : ℚ))
        corruptAlertThresholdField

/-- C2: the corruption alert can never fire: `_corruptAlertThreshold` is
never assigned, so the ratio test compares a number against `undefined`,
which is always `false` — for EVERY input the load succeeds, including a
file of two corrupt lines, whose corruption ratio 1/2 exceeds the
documented default threshold 0.1. -/
theorem claim_C2_corruption_alert_never_fires :
    (∀ lines, treatRawDataRaisesCorruption lines = false) ∧
    treatRawDataRaisesCorruption [.error "bad", .error "bad"] = false ∧
    (corruptItemsCount [.error "bad", .error "bad"] : ℚ) /
        (([Except.error "bad", Except.error "bad"] :
          List (Except String Value)).length : ℚ) > 1 / 10 := by
  refine ⟨fun lines => ?_, ?_, ?_⟩
  · simp [treatRawDataRaisesCorruption, jsGtNum, corruptAlertThresholdField]
  · simp [treatRawDataRaisesCorruption, jsGtNum, corruptAlertThresholdField]
  · norm_num [corruptItemsCount, isCorruptLine]

/-! ## C1 and C10: `Indexer` (Indexer.ts) over `@datastructures-js/binary-search-tree`

The BST library ships no source in this repository; it is modelled from
its documented behaviour: a plain, non-balancing binary search tree whose
default comparator is `(a, b) => a < b ? -1 : a > b ? 1 : 0`, whose
`insert` overwrites the stored value on an equal key, and whose `remove`
deletes the node found by the comparator, replacing a two-child node by
the minimum of its right subtree. -/

/-- A node of the library's BST: key, stored document, children. -/
inductive BTree where
  | leaf
  | node (l : BTree) (key doc : Value) (r : BTree)

/-- JS `a < b` on the key values the indexer stores: two strings compare
lexicographically, two numbers numerically, and `undefined` against
anything is a `NaN` comparison, hence `false` both ways.  Other mixed
pairs trigger JS coercions the model leaves undetermined. -/
def jsKeyLt : Value → Value → Option Bool
  | .str a, .str b => some (charListLt a.data b.data)
  | .num a, .num b => some (decide (a < b))
  | .undef, _ => some false
  | _, .undef => some false
  | _, _ => none

/-- The library's default comparator `(a, b) => a < b ? -1 : a > b ? 1 : 0`. -/
def bstCmp (a b : Value) : Option Int := do
  let lt ← jsKeyLt a b
  let gt ← jsKeyLt b a
  pure (if lt then -1 else if gt then 1 else 0)

/-- BST search: found iff the comparator answers `0` on some node. -/
def bstHas : BTree → Value → Option Bool
  | .leaf, _ => some false
  | .node l k _ r, key => do
      let c ← bstCmp key k
      if c < 0 then bstHas l key
      else if c > 0 then bstHas r key
      else pure true

/-- BST insert; an equal key overwrites the stored document. -/
def bstInsert : BTree → Value → Value → Option BTree
  | .leaf, key, doc => some (.node .leaf key doc .leaf)
  | .node l k d r, key, doc => do
      let c ← bstCmp key k
      if c < 0 then do
        let l2 ← bstInsert l key doc
        pure (.node l2 k d r)
      else if c > 0 then do
        let r2 ← bstInsert r key doc
        pure (.node l k d r2)
      else pure (.node l key doc r)

/-- Key and document of the leftmost node. -/
def bstMin : BTree → Option (Value × Value)
  | .leaf => none
  | .node .leaf k d _ => some (k, d)
  | .node (.node ll lk ld lr) _ _ _ => bstMin (.node ll lk ld lr)

/-- BST removal of the node the comparator finds: a missing key leaves the
tree unchanged; a node with at most one child is spliced out; a node with
two children is replaced by the minimum of its right subtree, which is in
turn removed from that subtree. -/
def bstRemove : BTree → Value → Option BTree
  | .leaf, _ => some .leaf
  | .node l k d r, key => do
      let c ← bstCmp key k
      if c < 0 then do
        let l2 ← bstRemove l key
        pure (.node l2 k d r)
      else if c > 0 then do
        let r2 ← bstRemove r key
        pure (.node l k d r2)
      else
        match l, r with
        | .leaf, _ => pure r
        | .node ll lk ld lr, .leaf => pure (.node ll lk ld lr)
        | _, .node rl rk rd rr =>
            match bstMin (.node rl rk rd rr) with
            | none => pure l
            | some (mk, md) => do
                let r2 ← bstRemove (.node rl rk rd rr) mk
                pure (.node l mk md r2)

/-- `BinarySearchTree.count()`. -/
def bstCount : BTree → Nat
  | .leaf => 0
  | .node l _ _ r => bstCount l + 1 + bstCount r

/-- `Model.getDotValue` (Model.ts lines 501-527) for a single-segment
field (no dot in the name), the only form the verified properties use:
`fieldParts` is `[field]`, so a falsy `obj` gives `undefined` and anything
else gives the property access `obj[field]`. -/
def getDotValue1 (obj : Value) (field : String) : Value :=
  if !(jsTruthy obj) then .undef else jsGet obj field

/-- The state of an `Indexer` (Indexer.ts lines 13-34). -/
structure IndexerState where
  fieldName : String
  isUniqueKeys : Bool
  isAllowSparse : Bool
  tree : BTree

/-- `Indexer.insert` on a single (non-array) document (Indexer.ts lines
95-103): sparse indexes skip null-ish keys, array keys are refused, a
unique index refuses a present key, otherwise the tree gains the key. -/
def idxInsertOne (s : IndexerState) (doc : Value) :
    Option (Except String IndexerState) := do
  let key := getDotValue1 doc s.fieldName
  if jsLooseNull key && s.isAllowSparse then pure (.ok s)
  else match key with
    | .arr _ => pure (.error "Cannot use an array for an index")
    | _ => do
        let hs ← bstHas s.tree key
        if s.isUniqueKeys && hs then
          pure (.error "Cannot insert key, it violates the unique constraint")
        else do
          let t2 ← bstInsert s.tree key doc
          pure (.ok { s with tree := t2 })

/-- The `doc.forEach(d => this.insert(d))` loop of the array branch of
`Indexer.insert` (lines 77-81): insert each element in order, stopping at
the first failure and reporting the state reached so far. -/
def idxInsertEach : IndexerState → List Value → Option (IndexerState × Option String)
  | s, [] => some (s, none)
  | s, d :: ds => do
      match ← idxInsertOne s d with
      | .error e => pure (s, some e)
      | .ok s2 => idxInsertEach s2 ds

/-- `Indexer.insert` on an array of documents (lines 76-92): insert every
element; if one fails, the catch block runs
`doc.forEach(d => this._tree.remove(Model.getDotValue(doc, this._fieldName)))`
— the dot-value of the whole ARRAY `doc`, not of the element `d` — once
per element, directly on the tree, and rethrows.  Returns the state after
the call and the error, if one was thrown. -/
def idxInsertArray (s : IndexerState) (docs : List Value) :
    Option (IndexerState × Option String) := do
  let (s1, e) ← idxInsertEach s docs
  match e with
  | none => pure (s1, none)
  | some err => do
      let key := getDotValue1 (.arr docs) s.fieldName
      let t2 ← docs.foldlM (fun t _ => bstRemove t key) s1.tree
      pure ({ s1 with tree := t2 }, some err)

/-- C1: the batch insert is NOT atomic.  On a unique index on `k` already
holding the document `{_id:"0", k:"z"}`, inserting the batch
`[{_id:"1",k:"a"}, {_id:"2",k:"a"}]` fails on the duplicate key — and the
catch-block "rollback" computes `getDotValue` of the whole batch array,
which is `undefined`; `undefined` compares equal to every key under the
default comparator, so each rollback step removes the tree's root: the
index ends up EMPTY, not in its pre-call one-entry state.  (On the spec's
own example — the same failing batch against an initially empty index —
the final count is 0 only because the index happened to start empty.) -/
theorem claim_C1_batch_insert_not_atomic :
    bstCount (IndexerState.tree ⟨"k", true, false,
      .node .leaf (.str "z") (.obj [("_id", .str "0"), ("k", .str "z")]) .leaf⟩) = 1 ∧
    idxInsertArray
      ⟨"k", true, false,
        .node .leaf (.str "z") (.obj [("_id", .str "0"), ("k", .str "z")]) .leaf⟩
      [.obj [("_id", .str "1"), ("k", .str "a")],
       .obj [("_id", .str "2"), ("k", .str "a")]] =
      some (⟨"k", true, false, .leaf⟩,
        some "Cannot insert key, it violates the unique constraint") ∧
    idxInsertArray ⟨"k", true, false, .leaf⟩
      [.obj [("_id", .str "1"), ("k", .str "a")],
       .obj [("_id", .str "2"), ("k", .str "b")],
       .obj [("_id", .str "3"), ("k", .str "a")]] =
      some (⟨"k", true, false, .leaf⟩,
        some "Cannot insert key, it violates the unique constraint") :=
  ⟨rfl, rfl, rfl⟩

/-- `Indexer.remove` (Indexer.ts lines 113-134) on a single (non-array)
argument: a `typeof == 'object'` argument is a document whose key is its
dot-value, anything else is the key itself; null-ish keys are skipped on
sparse indexes, and the tree is touched only when `has(key)` holds. -/
def idxRemove (s : IndexerState) (doc : Value) : Option IndexerState := do
  let key := if jsTypeof doc == JsType.objectT then getDotValue1 doc s.fieldName else doc
  if jsLooseNull key && s.isAllowSparse then pure s
  else do
    let hs ← bstHas s.tree key
    if hs then do
      let t2 ← bstRemove s.tree key
      pure { s with tree := t2 }
    else pure s

/-- Every key of the tree satisfies `p`. -/
def bstAllKeys (p : Value → Bool) : BTree → Bool
  | .leaf => true
  | .node l k _ r => p k && bstAllKeys p l && bstAllKeys p r

/-- JS `<` restricted to string keys (false on everything else). -/
def keyLtStr : Value → Value → Bool
  | .str a, .str b => charListLt a.data b.data
  | _, _ => false

/-- Search-tree shape over string keys: every key is a string and every
node's left (right) subtree holds strictly smaller (larger) keys — the
invariant `insert` maintains on an index whose keys are strings. -/
def bstWF : BTree → Bool
  | .leaf => true
  | .node l k _ r =>
      isStr k && bstAllKeys (fun k2 => keyLtStr k2 k) l
        && bstAllKeys (fun k2 => keyLtStr k k2) r && bstWF l && bstWF r

theorem charListLt_irrefl (a : List Char) : charListLt a a = false := by
  by_cases h : charListLt a a = true
  · exact absurd (charListLt_asymm h) (by simp [h])
  · exact eq_false_of_ne_true h

theorem bstAllKeys_imp {p q : Value → Bool} (hpq : ∀ k, p k = true → q k = true) :
    ∀ {t : BTree}, bstAllKeys p t = true → bstAllKeys q t = true := by
  intro t
  induction t with
  | leaf => intro _; rfl
  | node l k d r ihl ihr =>
      intro h
      simp only [bstAllKeys, Bool.and_eq_true] at h ⊢
      exact ⟨⟨hpq k h.1.1, ihl h.1.2⟩, ihr h.2⟩

theorem keyLtStr_str_left {k : String} {b : Value} (h : keyLtStr (.str k) b = true) :
    ∃ sb, b = .str sb ∧ charListLt k.data sb.data = true := by
  cases b <;> first
    | exact ⟨_, rfl, h⟩
    | exact Bool.noConfusion h

theorem keyLtStr_str_right {k : String} {a : Value} (h : keyLtStr a (.str k) = true) :
    ∃ sa, a = .str sa ∧ charListLt sa.data k.data = true := by
  cases a <;> first
    | exact ⟨_, rfl, h⟩
    | exact Bool.noConfusion h

theorem bstCmp_str_lt {a b : String} (h : charListLt a.data b.data = true) :
    bstCmp (.str a) (.str b) = some (-1) := by
  simp [bstCmp, jsKeyLt, h]

theorem bstCmp_str_gt {a b : String} (h : charListLt b.data a.data = true) :
    bstCmp (.str a) (.str b) = some 1 := by
  simp [bstCmp, jsKeyLt, h, charListLt_asymm h]

theorem bstCmp_str_eq0 {a b : String} (h1 : charListLt a.data b.data = false)
    (h2 : charListLt b.data a.data = false) :
    bstCmp (.str a) (.str b) = some 0 := by
  simp [bstCmp, jsKeyLt, h1, h2]

theorem bstHas_node_lt {l r : BTree} {d : Value} {k s0 : String}
    (h : charListLt k.data s0.data = true) :
    bstHas (.node l (.str s0) d r) (.str k) = bstHas l (.str k) := by
  simp [bstHas, bstCmp_str_lt h]

theorem bstHas_node_gt {l r : BTree} {d : Value} {k s0 : String}
    (h : charListLt s0.data k.data = true) :
    bstHas (.node l (.str s0) d r) (.str k) = bstHas r (.str k) := by
  simp [bstHas, bstCmp_str_gt h]

theorem bstHas_node_eq {l r : BTree} {d : Value} {k s0 : String}
    (h1 : charListLt k.data s0.data = false) (h2 : charListLt s0.data k.data = false) :
    bstHas (.node l (.str s0) d r) (.str k) = some true := by
  simp [bstHas, bstCmp_str_eq0 h1 h2]

theorem bstHas_false_of_all_gt : ∀ {t : BTree} {k : String},
    bstAllKeys (fun k2 => keyLtStr (.str k) k2) t = true →
    bstHas t (.str k) = some false := by
  intro t
  induction t with
  | leaf => intro k _; rfl
  | node l k0 d r ihl ihr =>
      intro k h
      simp only [bstAllKeys, Bool.and_eq_true] at h
      obtain ⟨⟨hk0, hl⟩, hr⟩ := h
      obtain ⟨sb, rfl, hlt⟩ := keyLtStr_str_left hk0
      rw [bstHas_node_lt hlt]
      exact ihl hl

theorem bstHas_false_of_all_lt : ∀ {t : BTree} {k : String},
    bstAllKeys (fun k2 => keyLtStr k2 (.str k)) t = true →
    bstHas t (.str k) = some false := by
  intro t
  induction t with
  | leaf => intro k _; rfl
  | node l k0 d r ihl ihr =>
      intro k h
      simp only [bstAllKeys, Bool.and_eq_true] at h
      obtain ⟨⟨hk0, hl⟩, hr⟩ := h
      obtain ⟨sa, rfl, hlt⟩ := keyLtStr_str_right hk0
      rw [bstHas_node_gt hlt]
      exact ihr hr

theorem bstMin_node_isSome : ∀ (l : BTree) (k d : Value) (r : BTree),
    (bstMin (.node l k d r)).isSome = true := by
  intro l
  induction l with
  | leaf => intro k d r; rfl
  | node ll lk ld lr ihl ihr =>
      intro k d r
      simp only [bstMin]
      exact ihl lk ld lr

theorem bstMin_mem : ∀ {t : BTree} {p : Value → Bool} {mk md : Value},
    bstMin t = some (mk, md) → bstAllKeys p t = true → p mk = true := by
  intro t
  induction t with
  | leaf => intro p mk md h _; exact Option.noConfusion h
  | node l k0 d r ihl ihr =>
      intro p mk md hmin hall
      simp only [bstAllKeys, Bool.and_eq_true] at hall
      obtain ⟨⟨hpk, hpl⟩, hpr⟩ := hall
      cases l with
      | leaf =>
          simp only [bstMin] at hmin
          cases hmin
          exact hpk
      | node ll lk ld lr =>
          simp only [bstMin] at hmin
          exact ihl hmin hpl

theorem bstMin_has : ∀ {t : BTree} {mk md : Value},
    bstWF t = true → bstMin t = some (mk, md) → bstHas t mk = some true := by
  intro t
  induction t with
  | leaf => intro mk md _ h; exact Option.noConfusion h
  | node l k0 d r ihl ihr =>
      intro mk md hwf hmin
      simp only [bstWF, Bool.and_eq_true] at hwf
      obtain ⟨⟨⟨⟨hstr, hbl⟩, hbr⟩, hwl⟩, hwr⟩ := hwf
      obtain ⟨s0, rfl⟩ : ∃ s0, k0 = .str s0 := by
        cases k0 <;> first | exact ⟨_, rfl⟩ | exact Bool.noConfusion hstr
      cases l with
      | leaf =>
          simp only [bstMin] at hmin
          cases hmin
          exact bstHas_node_eq (charListLt_irrefl _) (charListLt_irrefl _)
      | node ll lk ld lr =>
          simp only [bstMin] at hmin
          have hmem := bstMin_mem hmin hbl
          obtain ⟨ms, rfl, hlt⟩ := keyLtStr_str_right hmem
          rw [bstHas_node_lt hlt]
          exact ihl hwl hmin

theorem bstAllKeys_node {p : Value → Bool} {l r : BTree} {k d : Value} :
    bstAllKeys p (.node l k d r) = true ↔
      p k = true ∧ bstAllKeys p l = true ∧ bstAllKeys p r = true := by
  simp [bstAllKeys, Bool.and_eq_true, and_assoc]

theorem bstMin_lb : ∀ {t : BTree} {mk md : Value},
    bstWF t = true → bstMin t = some (mk, md) →
    bstAllKeys (fun k2 => !(keyLtStr k2 mk)) t = true := by
  intro t
  induction t with
  | leaf => intro mk md _ _; rfl
  | node l k0 d r ihl ihr =>
      intro mk md hwf hmin
      simp only [bstWF, Bool.and_eq_true] at hwf
      obtain ⟨⟨⟨⟨hstr, hbl⟩, hbr⟩, hwl⟩, hwr⟩ := hwf
      obtain ⟨s0, rfl⟩ : ∃ s0, k0 = .str s0 := by
        cases k0 <;> first | exact ⟨_, rfl⟩ | exact Bool.noConfusion hstr
      cases l with
      | leaf =>
          simp only [bstMin] at hmin
          cases hmin
          rw [bstAllKeys_node]
          refine ⟨?_, rfl, ?_⟩
          · simp [keyLtStr, charListLt_irrefl]
          · refine bstAllKeys_imp (fun k2 h2 => ?_) hbr
            obtain ⟨sb, rfl, hl2⟩ := keyLtStr_str_left h2
            simp [keyLtStr, charListLt_asymm hl2]
      | node ll lk ld lr =>
          simp only [bstMin] at hmin
          have hlb := ihl hwl hmin
          have hmem := bstMin_mem hmin hbl
          obtain ⟨ms, rfl, hltms0⟩ := keyLtStr_str_right hmem
          rw [bstAllKeys_node]
          refine ⟨?_, hlb, ?_⟩
          · simp [keyLtStr, charListLt_asymm hltms0]
          · refine bstAllKeys_imp (fun k2 h2 => ?_) hbr
            obtain ⟨sb, rfl, hl2⟩ := keyLtStr_str_left h2
            simp [keyLtStr, charListLt_asymm (charListLt_trans hltms0 hl2)]

theorem bstWF_node {l r : BTree} {k d : Value} :
    bstWF (.node l k d r) = true ↔
      isStr k = true ∧ bstAllKeys (fun k2 => keyLtStr k2 k) l = true ∧
        bstAllKeys (fun k2 => keyLtStr k k2) r = true ∧
        bstWF l = true ∧ bstWF r = true := by
  simp [bstWF, Bool.and_eq_true, and_assoc]

theorem bstRemove_allKeys : ∀ {t : BTree} {p : Value → Bool} {key : Value} {t2 : BTree},
    bstAllKeys p t = true → bstRemove t key = some t2 → bstAllKeys p t2 = true := by
  intro t
  induction t with
  | leaf =>
      intro p key t2 _ hrem
      rw [bstRemove.eq_def] at hrem
      cases hrem
      rfl
  | node l k0 d r ihl ihr =>
      intro p key t2 hall hrem
      rw [bstAllKeys_node] at hall
      obtain ⟨hpk0, hpl, hpr⟩ := hall
      rw [bstRemove.eq_def] at hrem
      cases hc : bstCmp key k0 with
      | none =>
          simp only [hc, Option.bind_eq_bind, Option.none_bind] at hrem
          exact Option.noConfusion hrem
      | some c =>
          simp only [hc, Option.bind_eq_bind, Option.some_bind] at hrem
          by_cases h1 : c < 0
          · rw [if_pos h1] at hrem
            cases hl2 : bstRemove l key with
            | none =>
                rw [hl2] at hrem
                exact Option.noConfusion hrem
            | some l2 =>
                rw [hl2] at hrem
                simp only [Option.some_bind, Option.pure_def] at hrem
                cases hrem
                rw [bstAllKeys_node]
                exact ⟨hpk0, ihl hpl hl2, hpr⟩
          · rw [if_neg h1] at hrem
            by_cases h2 : c > 0
            · rw [if_pos h2] at hrem
              cases hr2 : bstRemove r key with
              | none =>
                  rw [hr2] at hrem
                  exact Option.noConfusion hrem
              | some r2 =>
                  rw [hr2] at hrem
                  simp only [Option.some_bind, Option.pure_def] at hrem
                  cases hrem
                  rw [bstAllKeys_node]
                  exact ⟨hpk0, hpl, ihr hpr hr2⟩
            · rw [if_neg h2] at hrem
              cases l with
              | leaf =>
                  cases r with
                  | leaf => cases hrem; rfl
                  | node rl rk rd rr => cases hrem; exact hpr
              | node ll lk ld lr =>
                  cases r with
                  | leaf =>
                      cases hrem
                      exact hpl
                  | node rl rk rd rr =>
                      cases hmin : bstMin (.node rl rk rd rr) with
                      | none =>
                          simp only [hmin, Option.pure_def] at hrem
                          cases hrem
                          exact hpl
                      | some mkmd =>
                          obtain ⟨mk, md⟩ := mkmd
                          cases hr2 : bstRemove (.node rl rk rd rr) mk with
                          | none =>
                              simp only [hmin, hr2, Option.bind_eq_bind,
                                Option.none_bind] at hrem
                              exact Option.noConfusion hrem
                          | some r2 =>
                              simp only [hmin, hr2, Option.bind_eq_bind,
                                Option.some_bind, Option.pure_def] at hrem
                              cases hrem
                              rw [bstAllKeys_node]
                              exact ⟨bstMin_mem hmin hpr, hpl, ihr hpr hr2⟩

theorem bstAllGt_of_has_false : ∀ {t : BTree} {k : String},
    bstWF t = true →
    bstAllKeys (fun k2 => !(keyLtStr k2 (.str k))) t = true →
    bstHas t (.str k) = some false →
    bstAllKeys (fun k2 => keyLtStr (.str k) k2) t = true := by
  intro t
  induction t with
  | leaf => intro k _ _ _; rfl
  | node l k0 d r ihl ihr =>
      intro k hwf hge hh
      simp only [bstWF, Bool.and_eq_true] at hwf
      obtain ⟨⟨⟨⟨hstr, hbl⟩, hbr⟩, hwl⟩, hwr⟩ := hwf
      rw [bstAllKeys_node] at hge
      obtain ⟨hgek0, hgel, hger⟩ := hge
      obtain ⟨s0, rfl⟩ : ∃ s0, k0 = .str s0 := by
        cases k0 <;> first | exact ⟨_, rfl⟩ | exact Bool.noConfusion hstr
      have hs0k : charListLt s0.data k.data = false := by
        simpa [keyLtStr] using hgek0
      cases hlt : charListLt k.data s0.data with
      | true =>
          rw [bstHas_node_lt hlt] at hh
          rw [bstAllKeys_node]
          refine ⟨?_, ihl hwl hgel hh, ?_⟩
          · simpa [keyLtStr] using hlt
          · refine bstAllKeys_imp (fun k2 h2 => ?_) hbr
            obtain ⟨sb, rfl, hl2⟩ := keyLtStr_str_left h2
            simpa [keyLtStr] using charListLt_trans hlt hl2
      | false =>
          rw [bstHas_node_eq hlt hs0k] at hh
          exact absurd hh (by simp)

theorem bstRemove_present : ∀ {t : BTree} {k : String},
    bstWF t = true → bstHas t (.str k) = some true →
    ∃ t2, bstRemove t (.str k) = some t2 ∧ bstWF t2 = true ∧
      bstCount t2 + 1 = bstCount t ∧ bstHas t2 (.str k) = some false := by
  intro t
  induction t with
  | leaf => intro k _ hh; exact Bool.noConfusion (Option.some.inj hh)
  | node l k0 d r ihl ihr =>
      intro k hwf hh
      simp only [bstWF, Bool.and_eq_true] at hwf
      obtain ⟨⟨⟨⟨hstr, hbl⟩, hbr⟩, hwl⟩, hwr⟩ := hwf
      obtain ⟨s0, rfl⟩ : ∃ s0, k0 = .str s0 := by
        cases k0 <;> first | exact ⟨_, rfl⟩ | exact Bool.noConfusion hstr
      cases hlt : charListLt k.data s0.data with
      | true =>
          rw [bstHas_node_lt hlt] at hh
          obtain ⟨l2, hrem, hwf2, hcnt, hhas2⟩ := ihl hwl hh
          refine ⟨.node l2 (.str s0) d r, ?_, ?_, ?_, ?_⟩
          · rw [bstRemove.eq_def]
            simp [bstCmp_str_lt hlt, hrem]
          · simp only [bstWF, Bool.and_eq_true]
            exact ⟨⟨⟨⟨rfl, bstRemove_allKeys hbl hrem⟩, hbr⟩, hwf2⟩, hwr⟩
          · simp only [bstCount]; omega
          · rw [bstHas_node_lt hlt]; exact hhas2
      | false =>
          cases hgt : charListLt s0.data k.data with
          | true =>
              rw [bstHas_node_gt hgt] at hh
              obtain ⟨r2, hrem, hwf2, hcnt, hhas2⟩ := ihr hwr hh
              refine ⟨.node l (.str s0) d r2, ?_, ?_, ?_, ?_⟩
              · rw [bstRemove.eq_def]
                simp [bstCmp_str_gt hgt, hrem]
              · simp only [bstWF, Bool.and_eq_true]
                exact ⟨⟨⟨⟨rfl, hbl⟩, bstRemove_allKeys hbr hrem⟩, hwl⟩, hwf2⟩
              · simp only [bstCount]; omega
              · rw [bstHas_node_gt hgt]; exact hhas2
          | false =>
              have hks : k = s0 := by
                have hdata := charListLt_eq_of_not hlt hgt
                cases k; cases s0
                exact congrArg String.mk hdata
              subst hks
              cases l with
              | leaf =>
                  refine ⟨r, ?_, hwr, ?_, ?_⟩
                  · rw [bstRemove.eq_def]
                    simp [bstCmp_str_eq0 hlt hgt]
                  · simp only [bstCount]; omega
                  · exact bstHas_false_of_all_gt hbr
              | node ll lk ld lr =>
                  cases r with
                  | leaf =>
                      refine ⟨.node ll lk ld lr, ?_, hwl, ?_, ?_⟩
                      · rw [bstRemove.eq_def]
                        simp [bstCmp_str_eq0 hlt hgt]
                      · simp only [bstCount]
                      · exact bstHas_false_of_all_lt hbl
                  | node rl rk rd rr =>
                      have hmins := bstMin_node_isSome rl rk rd rr
                      cases hmin : bstMin (.node rl rk rd rr) with
                      | none => rw [hmin] at hmins; exact Bool.noConfusion hmins
                      | some mkmd =>
                          obtain ⟨mk, md⟩ := mkmd
                          have hmem := bstMin_mem hmin hbr
                          obtain ⟨ms, rfl, hltms⟩ := keyLtStr_str_left hmem
                          have hhasr := bstMin_has hwr hmin
                          obtain ⟨r2, hrem, hwf2, hcnt, hhas2⟩ := ihr hwr hhasr
                          refine ⟨.node (.node ll lk ld lr) (.str ms) md r2, ?_, ?_, ?_, ?_⟩
                          · rw [bstRemove.eq_def]
                            simp [bstCmp_str_eq0 hlt hgt, hmin, hrem]
                          · rw [bstWF_node]
                            refine ⟨rfl, ?_, ?_, hwl, hwf2⟩
                            · refine bstAllKeys_imp (fun k2 h2 => ?_) hbl
                              obtain ⟨sa, rfl, hl2⟩ := keyLtStr_str_right h2
                              simpa [keyLtStr] using charListLt_trans hl2 hltms
                            · exact bstAllGt_of_has_false hwf2
                                (bstRemove_allKeys (bstMin_lb hwr hmin) hrem) hhas2
                          · simp only [bstCount] at hcnt ⊢; omega
                          · rw [bstHas_node_lt hltms]
                            exact bstHas_false_of_all_lt hbl

theorem idxRemove_doc_eval {s : IndexerState} {doc : Value} {k : String}
    (hobj : jsTypeof doc = JsType.objectT)
    (hkey : getDotValue1 doc s.fieldName = .str k) :
    idxRemove s doc = (do
      let hs ← bstHas s.tree (.str k)
      if hs then do
        let t2 ← bstRemove s.tree (.str k)
        pure { s with tree := t2 }
      else pure s) := by
  simp [idxRemove, hobj, hkey, jsLooseNull]

/-- C10: `Indexer.remove` with a document argument removes by key only:
the key is the document's dot-value and the rest of the document is never
inspected, so any two documents with the same key trigger the identical
removal; when no entry carries the key, the index is left unchanged; when
an entry does, that entry is removed — one node fewer and the key no
longer present — no matter which document is stored under it. -/
theorem claim_C10_remove_by_key (s : IndexerState) (doc : Value) (k : String)
    (hobj : jsTypeof doc = JsType.objectT)
    (hkey : getDotValue1 doc s.fieldName = .str k)
    (hwf : bstWF s.tree = true) :
    (∀ doc2, jsTypeof doc2 = JsType.objectT →
      getDotValue1 doc2 s.fieldName = .str k → idxRemove s doc2 = idxRemove s doc) ∧
    (bstHas s.tree (.str k) = some false → idxRemove s doc = some s) ∧
    (bstHas s.tree (.str k) = some true →
      ∃ t2, idxRemove s doc = some { s with tree := t2 } ∧
        bstCount t2 + 1 = bstCount s.tree ∧ bstHas t2 (.str k) = some false) := by
  refine ⟨fun doc2 h1 h2 => ?_, fun hh => ?_, fun hh => ?_⟩
  · rw [idxRemove_doc_eval h1 h2, idxRemove_doc_eval hobj hkey]
  · rw [idxRemove_doc_eval hobj hkey]
    simp [hh, Option.bind_eq_bind, Option.some_bind]
  · obtain ⟨t2, hrem, hwf2, hcnt, hhas2⟩ := bstRemove_present hwf hh
    refine ⟨t2, ?_, hcnt, hhas2⟩
    rw [idxRemove_doc_eval hobj hkey]
    simp [hh, hrem, Option.bind_eq_bind, Option.some_bind]

/-- C10 witness: on an index on `k` holding one entry with key `"a"` and
stored document `{_id:"1", k:"a"}`, removing the DIFFERENT document
`{_id:"2", k:"a"}` still deletes the entry: the tree becomes empty. -/
theorem claim_C10_witness :
    ∃ t2, idxRemove
        ⟨"k", false, false,
          .node .leaf (.str "a") (.obj [("_id", .str "1"), ("k", .str "a")]) .leaf⟩
        (.obj [("_id", .str "2"), ("k", .str "a")]) =
      some ⟨"k", false, false, t2⟩ ∧
      bstCount t2 + 1 =
        bstCount (BTree.node .leaf (.str "a")
          (.obj [("_id", .str "1"), ("k", .str "a")]) .leaf) ∧
      bstHas t2 (.str "a") = some false :=
  (claim_C10_remove_by_key
    ⟨"k", false, false,
      .node .leaf (.str "a") (.obj [("_id", .str "1"), ("k", .str "a")]) .leaf⟩
    (.obj [("_id", .str "2"), ("k", .str "a")]) "a" rfl rfl rfl).2.2 rfl
